import Mathlib

/-!
# providenetwork/smt : `mapstore.go`

A shallow embedding of the in-memory key-value store `SimpleMap` and of its
JSON encoding, followed by theorems about it.

Conventions of the embedding

* A Go `[]byte` and a Go `string` are both finite byte sequences (`Bytes`); the
  conversions `string(key)` and `[]byte(k)` are the identity. A nil slice and an
  empty slice are both the empty sequence.
* A Go map is a finite list of entries with pairwise distinct keys (`GoMap`);
  a map variable is `Option GoMap`, `none` being the nil map.
* A method with a pointer receiver takes the store and returns its results
  together with the store after the call.
* `for k := range m` visits every entry once in an order Go leaves open; the
  order is an explicit argument (`RangeOrder`), and theorems hold for all of them.
* The text handed to `json.Unmarshal` is represented by the result of Go's
  syntax scan (`Raw`): either rejected, or the JSON document it denotes.
-/

namespace Smt

/-! ## Bytes and strings -/

abbrev Byte := Fin 256

abbrev Bytes := List Byte

/-- The bytes of an ASCII string literal, for writing examples. -/
def ascii (s : String) : Bytes := s.toList.map (fun c => Fin.ofNat c.toNat)

/-! ## Errors -/

/-- The error values that the code of `mapstore.go` can return. -/
inductive Error where
  /-- The `InvalidKeyError` of `mapstore.go`: a key that does not exist is accessed. -/
  | InvalidKeyError (Key : Bytes)
  /-- The error `json.SyntaxError`: the text is not well-formed JSON. -/
  | SyntaxError
  /-- The error `json.UnmarshalTypeError`: a JSON value does not fit the Go target type. -/
  | UnmarshalTypeError
  /-- The error `hex.InvalidByteError`: a byte that is not a hexadecimal digit. -/
  | InvalidByteError (b : Byte)
  /-- The error `hex.ErrLength`: a hexadecimal string of odd length. -/
  | ErrLength
  /-- The error `base64.CorruptInputError` (the offset it carries is not modelled). -/
  | CorruptInputError
  deriving DecidableEq

deriving instance DecidableEq for Except

/-! ## `encoding/hex` -/

/-- The constant `hextable = "0123456789abcdef"` of `encoding/hex`. -/
def hextable : Bytes := ascii "0123456789abcdef"

/-- The two digits `hextable[v>>4]`, `hextable[v&0x0f]` written for one byte. -/
def hexEncodeByte (v : Byte) : Bytes :=
  [hextable.getD (v.val / 16) 0, hextable.getD (v.val % 16) 0]

/-- The function `hex.EncodeToString`: two lower-case digits for every byte. -/
def hexEncodeToString : Bytes → Bytes
  | [] => []
  | v :: rest => hexEncodeByte v ++ hexEncodeToString rest

/-- The function `fromHexChar` (the table `reverseHexTable` in later Go versions): the value
of a hexadecimal digit, upper or lower case; `none` for any other byte. -/
def fromHexChar (c : Byte) : Option Nat :=
  if 48 ≤ c.val ∧ c.val ≤ 57 then some (c.val - 48)
  else if 97 ≤ c.val ∧ c.val ≤ 102 then some (c.val - 97 + 10)
  else if 65 ≤ c.val ∧ c.val ≤ 70 then some (c.val - 65 + 10)
  else none

/-- The function `hex.DecodeString`: pairs of digits are consumed left to right, the first
bad digit gives `InvalidByteError`; a trailing single digit gives `ErrLength`
(or `InvalidByteError` when it is not a digit). -/
def hexDecodeString : Bytes → Except Error Bytes
  | [] => .ok []
  | [p] =>
    match fromHexChar p with
    | none => .error (.InvalidByteError p)
    | some _ => .error .ErrLength
  | p :: q :: rest =>
    match fromHexChar p with
    | none => .error (.InvalidByteError p)
    | some a =>
      match fromHexChar q with
      | none => .error (.InvalidByteError q)
      | some b =>
        match hexDecodeString rest with
        | .error e => .error e
        | .ok bs => .ok (Fin.ofNat (a * 16 + b) :: bs)

/-! ## Go maps -/

/-- The value of the first entry with key `k`. -/
def lookupEntry (k : Bytes) : List (Bytes × Bytes) → Option Bytes
  | [] => none
  | e :: rest => if e.1 = k then some e.2 else lookupEntry k rest

/-- The entries whose key is not `k`. -/
def eraseKey (k : Bytes) (l : List (Bytes × Bytes)) : List (Bytes × Bytes) :=
  l.filter (fun e => decide (e.1 ≠ k))

/-- A non-nil Go map from strings to byte sequences (`map[string][]byte`, and
`map[string]string`, a Go string being a byte sequence too). -/
structure GoMap where
  entries : List (Bytes × Bytes)
  nodup : (entries.map Prod.fst).Nodup
  deriving DecidableEq

namespace GoMap

/-- The map literal `map[string][]byte{}`, also `make(map[string][]byte)`. -/
def empty : GoMap := ⟨[], List.nodup_nil⟩

/-- The assignment `m[k] = v`. -/
def set (m : GoMap) (k v : Bytes) : GoMap :=
  ⟨(k, v) :: eraseKey k m.entries,
    List.nodup_cons.mpr ⟨by simp [eraseKey],
      (List.Sublist.map Prod.fst (List.filter_sublist m.entries)).nodup m.nodup⟩⟩

/-- The builtin `delete(m, k)`. -/
def delete (m : GoMap) (k : Bytes) : GoMap :=
  ⟨eraseKey k m.entries, (List.Sublist.map Prod.fst (List.filter_sublist m.entries)).nodup m.nodup⟩

end GoMap

/-- The result of a call that may panic. -/
inductive Outcome (α : Type) where
  | panic
  | ret (a : α)
  deriving DecidableEq

/-- The entries of a map variable; a nil map has none. -/
def entriesOf : Option GoMap → List (Bytes × Bytes)
  | none => []
  | some m => m.entries

/-- The index expression `m[k]` on a map variable; reading a nil map finds nothing. -/
def index (m : Option GoMap) (k : Bytes) : Option Bytes := lookupEntry k (entriesOf m)

/-- The assignment `m[k] = v` on a map variable: a run-time panic on a nil map. -/
def assign (m : Option GoMap) (k v : Bytes) : Outcome (Option GoMap) :=
  match m with
  | none => .panic
  | some g => .ret (some (g.set k v))

/-- The builtin `delete(m, k)` on a map variable: no effect on a nil map. -/
def deleteKey (m : Option GoMap) (k : Bytes) : Option GoMap :=
  match m with
  | none => none
  | some g => some (g.delete k)

/-- An iteration order of `range`: every entry is visited exactly once. -/
structure RangeOrder where
  visit : List (Bytes × Bytes) → List (Bytes × Bytes)
  perm : ∀ l, (visit l).Perm l

/-- Visit the entries in the order they are listed. -/
def RangeOrder.listed : RangeOrder := ⟨id, fun l => List.Perm.refl l⟩

/-- Visit the entries in the opposite order. -/
def RangeOrder.reversed : RangeOrder := ⟨List.reverse, List.reverse_perm⟩

/-! ## `encoding/base64` -/

/-- The decode map of `base64.StdEncoding`: the 6-bit value of a character of
the alphabet `A-Z a-z 0-9 + /`; `none` (0xff in Go) for any other byte. -/
def base64Value (c : Byte) : Option Nat :=
  if 65 ≤ c.val ∧ c.val ≤ 90 then some (c.val - 65)
  else if 97 ≤ c.val ∧ c.val ≤ 122 then some (c.val - 97 + 26)
  else if 48 ≤ c.val ∧ c.val ≤ 57 then some (c.val - 48 + 52)
  else if c.val = 43 then some 62
  else if c.val = 47 then some 63
  else none

/-- The characters `\n` and `\r`, which the decoder skips. -/
def isNewline (c : Byte) : Bool := decide (c.val = 10 ∨ c.val = 13)

/-- The loop `for si < len(src) && (src[si] == '\n' || src[si] == '\r')`. -/
def skipNewlines : Bytes → Bytes
  | [] => []
  | c :: rest => if isNewline c then skipNewlines rest else c :: rest

/-- The end of `decodeQuantum`: the `dlen` 6-bit values read (missing ones are 0)
are packed into 24 bits, of which the first `dlen - 1` bytes are written. -/
def quantumBytes (dbuf : List Nat) : Bytes :=
  let val := dbuf.getD 0 0 * 262144 + dbuf.getD 1 0 * 4096 + dbuf.getD 2 0 * 64 + dbuf.getD 3 0
  ([val / 65536 % 256, val / 256 % 256, val % 256].map Fin.ofNat).take (dbuf.length - 1)

/-- The loop of `(*Encoding).Decode` over `decodeQuantum` for `StdEncoding` (padding
character `=`, not strict); `dbuf` holds the values read so far in the current
quantum. Any error discards the output. -/
def base64DecodeFrom : Bytes → List Nat → Except Error Bytes
  | [], dbuf => if dbuf.length = 0 then .ok [] else .error .CorruptInputError
  | c :: rest, dbuf =>
    match base64Value c with
    | some out =>
      if dbuf.length = 3 then
        match base64DecodeFrom rest [] with
        | .error e => .error e
        | .ok bs => .ok (quantumBytes (dbuf ++ [out]) ++ bs)
      else base64DecodeFrom rest (dbuf ++ [out])
    | none =>
      if isNewline c then base64DecodeFrom rest dbuf
      else if c.val ≠ 61 then .error .CorruptInputError
      else if dbuf.length < 2 then .error .CorruptInputError
      else if dbuf.length = 2 then
        match skipNewlines rest with
        | [] => .error .CorruptInputError
        | c2 :: rest2 =>
          if c2.val ≠ 61 then .error .CorruptInputError
          else if skipNewlines rest2 ≠ [] then .error .CorruptInputError
          else .ok (quantumBytes dbuf)
      else if skipNewlines rest ≠ [] then .error .CorruptInputError
      else .ok (quantumBytes dbuf)

/-- The method `base64.StdEncoding.Decode` on a whole string. -/
def base64Decode (src : Bytes) : Except Error Bytes := base64DecodeFrom src []

/-! ## `encoding/json` -/

/-- A JSON value in member position, as far as the two decoding targets used by
`UnmarshalJSON` tell values apart. -/
inductive JSONValue where
  /-- A string literal, with its escapes resolved. -/
  | string (s : Bytes)
  /-- The literal `null`. -/
  | null
  /-- Any other value: a number, a boolean, an array or an object. A `string`
  target rejects all of them. For a `[]byte` target the fields record what the
  decoder stores (an array of small numbers yields their bytes) and whether it
  does so without complaint. -/
  | other (asBytes : Bytes) (fits : Bool)
  deriving DecidableEq

/-- A JSON document, as far as a map target tells documents apart. -/
inductive JSONDoc where
  /-- An object: its members in the order of the text (a name may repeat). -/
  | object (members : List (Bytes × JSONValue))
  /-- The literal `null`. -/
  | null
  /-- A string, a number, a boolean or an array. -/
  | other
  deriving DecidableEq

/-- A text as `json.Unmarshal` sees it after its syntax scan (`checkValid`). -/
inductive Raw where
  /-- Not well-formed JSON. -/
  | invalid
  /-- Well-formed JSON denoting `doc`. -/
  | valid (doc : JSONDoc)
  deriving DecidableEq

/-- What decoding one member value into a fresh `string` element gives: the
element stored, and the error raised if any. `null` leaves the zero value. -/
def stringElem : JSONValue → Bytes × Option Error
  | .string s => (s, none)
  | .null => ([], none)
  | .other _ _ => ([], some .UnmarshalTypeError)

/-- What decoding one member value into a fresh `[]byte` element gives: a string
literal is taken as padded standard base64; on an error the element stays nil.
The error kept is the one of `base64`, as the decoder of `encoding/json` saves
it; decoders of later Go releases hand it on wrapped in a
`json.UnmarshalTypeError`, with the same element stored. -/
def bytesElem : JSONValue → Bytes × Option Error
  | .string s =>
    match base64Decode s with
    | .ok b => (b, none)
    | .error e => ([], some e)
  | .null => ([], none)
  | .other b fits => (b, if fits then none else some .UnmarshalTypeError)

/-- The member loop of the decoder's `object` for a map target: every member is
decoded into a fresh element and stored under its name, error or not; only
the first error is kept (`saveError`). -/
def storeMembers (elem : JSONValue → Bytes × Option Error) :
    List (Bytes × JSONValue) → GoMap × Option Error → GoMap × Option Error
  | [], acc => acc
  | (name, value) :: rest, (m, saved) =>
    storeMembers elem rest
      (m.set name (elem value).1,
        match saved with
        | some e => some e
        | none => (elem value).2)

/-- The call `json.Unmarshal(raw, &v)` for a map variable `v`, with `elem` the decoding of
a member value for the map's element type. A syntax error leaves `v` alone; `null`
sets `v` to nil; an object is stored into the existing map, a nil `v` being
allocated first; any other document is a type error. -/
def jsonUnmarshalMap (elem : JSONValue → Bytes × Option Error) (raw : Raw)
    (v : Option GoMap) : Option GoMap × Option Error :=
  match raw with
  | .invalid => (v, some .SyntaxError)
  | .valid .null => (none, none)
  | .valid .other => (v, some .UnmarshalTypeError)
  | .valid (.object members) =>
    let r := storeMembers elem members (v.getD GoMap.empty, none)
    (some r.1, r.2)

/-- Lexicographic comparison of Go strings (`a <= b`). -/
def bytesLE : Bytes → Bytes → Bool
  | [], _ => true
  | _ :: _, [] => false
  | a :: as, b :: bs => decide (a.val < b.val) || (decide (a = b) && bytesLE as bs)

/-- Insert an entry into a list sorted by key. -/
def insertByKey (e : Bytes × Bytes) : List (Bytes × Bytes) → List (Bytes × Bytes)
  | [] => [e]
  | x :: rest => if bytesLE e.1 x.1 then e :: x :: rest else x :: insertByKey e rest

/-- The entries sorted by key, the order in which `json.Marshal` writes a map. -/
def sortByKey : List (Bytes × Bytes) → List (Bytes × Bytes)
  | [] => []
  | e :: rest => insertByKey e (sortByKey rest)

/-- The call `json.Marshal(val)` for a map whose values are strings: the text of an object
with one member per entry, sorted by key; it cannot fail. (The strings written
by `MarshalJSON` are hexadecimal digits, which `json.Marshal` writes unchanged.) -/
def jsonMarshal (val : GoMap) : Raw × Option Error :=
  (.valid (.object ((sortByKey val.entries).map (fun e => (e.1, JSONValue.string e.2)))), none)

/-! ## The store -/

/-- The struct `SimpleMap`: a simple in-memory map. -/
structure SimpleMap where
  m : Option GoMap
  deriving DecidableEq

/-- NewSimpleMap creates a new empty SimpleMap. -/
def NewSimpleMap : SimpleMap := { m := some GoMap.empty }

/-- SimpleMapFactory initializes a SimpleMap with `m`. -/
def SimpleMapFactory (m : Option GoMap) : SimpleMap := { m := m }

namespace SimpleMap

/-- Get gets the value for a key: the pair `(value, error)` and the store. -/
def Get (sm : SimpleMap) (key : Bytes) : (Bytes × Option Error) × SimpleMap :=
  match index sm.m key with
  | some value => ((value, none), sm)
  | none => (([], some (.InvalidKeyError key)), sm)

/-- Set updates the value for a key: the error returned and the store, or a
panic when the internal map is nil. -/
def Set (sm : SimpleMap) (key value : Bytes) : Outcome (Option Error × SimpleMap) :=
  match assign sm.m key value with
  | .panic => .panic
  | .ret m => .ret (none, { m := m })

/-- Delete deletes a key. -/
def Delete (sm : SimpleMap) (key : Bytes) : Option Error × SimpleMap :=
  match index sm.m key with
  | some _ => (none, { m := deleteKey sm.m key })
  | none => (some (.InvalidKeyError key), sm)

/-- The map `val` built by the loop of `MarshalJSON`:
`val[hex.EncodeToString([]byte(k))] = hex.EncodeToString(sm.m[k])`. -/
def marshalVal (ord : RangeOrder) (sm : SimpleMap) : GoMap :=
  (ord.visit (entriesOf sm.m)).foldl
    (fun val e => val.set (hexEncodeToString e.1) (hexEncodeToString ((index sm.m e.1).getD [])))
    GoMap.empty

/-- MarshalJSON marshals to JSON: the pair `(text, error)` and the store. -/
def MarshalJSON (ord : RangeOrder) (sm : SimpleMap) : (Raw × Option Error) × SimpleMap :=
  (jsonMarshal (marshalVal ord sm), sm)

/-- The loop of `UnmarshalJSON` over the keys of `val`, writing into the map `m`
that `sm.m` refers to; it stops at the first error of `hex.DecodeString`. -/
def decodeLoop (val : Option GoMap) : List (Bytes × Bytes) → GoMap → GoMap × Option Error
  | [], m => (m, none)
  | e :: rest, m =>
    match hexDecodeString e.1 with
    | .error err => (m, some err)
    | .ok _key =>
      match hexDecodeString ((index val e.1).getD []) with
      | .error err => (m, some err)
      | .ok _val => decodeLoop val rest (m.set _key _val)

/-- UnmarshalJSON unmarshals from JSON: the error returned and the store. -/
def UnmarshalJSON (ord : RangeOrder) (sm : SimpleMap) (raw : Raw) : Option Error × SimpleMap :=
  match jsonUnmarshalMap stringElem raw none with
  | (_, some err) => (some err, sm)
  | (val, none) =>
    match decodeLoop val (ord.visit (entriesOf val)) GoMap.empty with
    | (m, some err) => (some err, { m := some m })
    | (m, none) =>
      let r := jsonUnmarshalMap bytesElem raw (some m)
      (r.2, { m := r.1 })

end SimpleMap

/-- A map given by its entries, later entries overriding earlier ones. -/
def GoMap.ofList (l : List (Bytes × Bytes)) : GoMap :=
  l.foldl (fun m e => m.set e.1 e.2) GoMap.empty

/-- The text of a JSON object whose member values are the given strings. -/
def objectText (members : List (String × String)) : Raw :=
  .valid (.object (members.map (fun e => (ascii e.1, JSONValue.string (ascii e.2)))))

/-! ## Sequences of calls -/

/-- One call of a method of the store. -/
inductive Call where
  | Get (key : Bytes)
  | Set (key value : Bytes)
  | Delete (key : Bytes)
  | MarshalJSON (ord : RangeOrder)
  | UnmarshalJSON (ord : RangeOrder) (raw : Raw)

/-- The store after one call, or the panic the call ends in. -/
def Call.run (sm : SimpleMap) : Call → Outcome SimpleMap
  | .Get key => .ret (sm.Get key).2
  | .Set key value =>
    match sm.Set key value with
    | .panic => .panic
    | .ret r => .ret r.2
  | .Delete key => .ret (sm.Delete key).2
  | .MarshalJSON ord => .ret (sm.MarshalJSON ord).2
  | .UnmarshalJSON ord raw => .ret (sm.UnmarshalJSON ord raw).2

/-- The store after a sequence of calls, or the panic the first failing call ends in. -/
def runCalls (sm : SimpleMap) : List Call → Outcome SimpleMap
  | [] => .ret sm
  | c :: rest =>
    match c.run sm with
    | .panic => .panic
    | .ret sm' => runCalls sm' rest

/-! ## The library models on known inputs -/

theorem hex_examples :
    hexEncodeToString [0x00, 0xFF] = ascii "00ff" ∧
    hexDecodeString (ascii "00fF") = .ok [0x00, 0xFF] ∧
    hexDecodeString (ascii "0") = .error .ErrLength ∧
    hexDecodeString (ascii "0g") = .error (.InvalidByteError 103) := by
  decide

theorem base64Decode_examples :
    base64Decode (ascii "") = .ok [] ∧
    base64Decode (ascii "abcd") = .ok [0x69, 0xB7, 0x1D] ∧
    base64Decode (ascii "YQ==") = .ok [97] ∧
    base64Decode (ascii "YWI=") = .ok [97, 98] ∧
    base64Decode (ascii "YWJj\nYQ==\n") = .ok [97, 98, 99, 97] ∧
    base64Decode (ascii "ff") = .error .CorruptInputError ∧
    base64Decode (ascii "YQ==YQ==") = .error .CorruptInputError := by
  decide

theorem unmarshal_examples :
    NewSimpleMap.UnmarshalJSON .listed (objectText [("00", "")])
      = (none, ⟨some (.ofList [([0x00], []), (ascii "00", [])])⟩) ∧
    NewSimpleMap.UnmarshalJSON .listed (.valid .null) = (none, ⟨none⟩) ∧
    NewSimpleMap.UnmarshalJSON .listed .invalid = (some .SyntaxError, NewSimpleMap) ∧
    NewSimpleMap.UnmarshalJSON .listed (.valid (.object [(ascii "00", .other [] false)]))
      = (some .UnmarshalTypeError, NewSimpleMap) := by
  decide

/-! ## Lemmas on map entries -/

theorem nodup_eraseKey (k : Bytes) (l : List (Bytes × Bytes))
    (h : (l.map Prod.fst).Nodup) : ((eraseKey k l).map Prod.fst).Nodup :=
  (List.Sublist.map Prod.fst (List.filter_sublist l)).nodup h

theorem not_mem_keys_eraseKey (k : Bytes) (l : List (Bytes × Bytes)) :
    k ∉ (eraseKey k l).map Prod.fst := by
  simp [eraseKey]

theorem eraseKey_cons (k : Bytes) (e : Bytes × Bytes) (l : List (Bytes × Bytes)) :
    eraseKey k (e :: l) = if e.1 = k then eraseKey k l else e :: eraseKey k l := by
  by_cases h : e.1 = k <;> simp [eraseKey, List.filter_cons, h]

theorem lookupEntry_eraseKey_self (k : Bytes) (l : List (Bytes × Bytes)) :
    lookupEntry k (eraseKey k l) = none := by
  induction l with
  | nil => rfl
  | cons e rest ih =>
    rw [eraseKey_cons]
    by_cases h : e.1 = k
    · rw [if_pos h]; exact ih
    · rw [if_neg h, lookupEntry, if_neg h]; exact ih

theorem lookupEntry_eraseKey_ne {k k2 : Bytes} (h : k2 ≠ k) (l : List (Bytes × Bytes)) :
    lookupEntry k2 (eraseKey k l) = lookupEntry k2 l := by
  induction l with
  | nil => rfl
  | cons e rest ih =>
    rw [eraseKey_cons]
    by_cases h1 : e.1 = k
    · have h2 : e.1 ≠ k2 := fun h3 => h (h3.symm.trans h1)
      rw [if_pos h1, lookupEntry, if_neg h2]; exact ih
    · rw [if_neg h1]
      by_cases h2 : e.1 = k2
      · rw [lookupEntry, lookupEntry, if_pos h2, if_pos h2]
      · rw [lookupEntry, lookupEntry, if_neg h2, if_neg h2]; exact ih

theorem lookupEntry_eq_none {k : Bytes} {l : List (Bytes × Bytes)} :
    lookupEntry k l = none ↔ k ∉ l.map Prod.fst := by
  induction l with
  | nil => simp [lookupEntry]
  | cons e rest ih =>
    by_cases h : e.1 = k
    · simp [lookupEntry, h]
    · have h2 : ¬ k = e.1 := fun h3 => h h3.symm
      simp only [lookupEntry, h, if_false, ih, List.map_cons, List.mem_cons, h2, false_or]

theorem mem_of_lookupEntry {k v : Bytes} {l : List (Bytes × Bytes)}
    (h : lookupEntry k l = some v) : (k, v) ∈ l := by
  induction l with
  | nil => simp [lookupEntry] at h
  | cons e rest ih =>
    by_cases h1 : e.1 = k
    · simp only [lookupEntry, h1, if_true, Option.some.injEq] at h
      have : e = (k, v) := Prod.ext h1 h
      simp [this]
    · simp only [lookupEntry, h1, if_false] at h
      exact List.mem_cons_of_mem _ (ih h)

theorem lookupEntry_of_mem {k v : Bytes} {l : List (Bytes × Bytes)}
    (nd : (l.map Prod.fst).Nodup) (h : (k, v) ∈ l) : lookupEntry k l = some v := by
  induction l with
  | nil => simp at h
  | cons e rest ih =>
    rw [List.map_cons, List.nodup_cons] at nd
    rcases List.mem_cons.mp h with h1 | h1
    · subst h1
      simp [lookupEntry]
    · have h2 : e.1 ≠ k := by
        intro h3
        exact nd.1 (h3 ▸ List.mem_map_of_mem Prod.fst h1)
      simpa [lookupEntry, h2] using ih nd.2 h1

theorem index_set_self (g : GoMap) (k v : Bytes) : index (some (g.set k v)) k = some v := by
  simp [index, entriesOf, GoMap.set, lookupEntry]

theorem index_set_ne (g : GoMap) {k k2 : Bytes} (h : k2 ≠ k) (v : Bytes) :
    index (some (g.set k v)) k2 = index (some g) k2 := by
  have h2 : ¬ k = k2 := fun h3 => h h3.symm
  simp [index, entriesOf, GoMap.set, lookupEntry, h2, lookupEntry_eraseKey_ne h]

theorem index_deleteKey_self (m : Option GoMap) (k : Bytes) : index (deleteKey m k) k = none := by
  cases m with
  | none => rfl
  | some g => simp [index, entriesOf, deleteKey, GoMap.delete, lookupEntry_eraseKey_self]

theorem count_key_set (g : GoMap) (k v : Bytes) :
    ((g.set k v).entries.map Prod.fst).count k = 1 := by
  have h : k ∉ (eraseKey k g.entries).map Prod.fst := not_mem_keys_eraseKey k g.entries
  simp [GoMap.set, List.count_cons, List.count_eq_zero_of_not_mem h]

/-! ## Get, Set, Delete -/

/-- C4: Set then Get. `Set(k, v)` returns, with no error, on every store whose
internal map is allocated (on a nil map it panics); and whenever `Set(k, v)` has
returned, `Get(k)` on the store it leaves returns `v` with no error, whether or
not `k` was present before and also for the empty `v`. -/
theorem C4_set_then_get (sm : SimpleMap) (k v : Bytes) :
    (sm.m ≠ none → ∃ sm', sm.Set k v = .ret (none, sm')) ∧
    (∀ e sm', sm.Set k v = .ret (e, sm') → e = none ∧ (sm'.Get k).1 = (v, none)) := by
  rcases sm with ⟨_ | g⟩
  · exact ⟨fun h => absurd rfl h, fun e sm' h => by simp [SimpleMap.Set, assign] at h⟩
  · refine ⟨fun _ => ⟨_, rfl⟩, fun e sm' h => ?_⟩
    simp only [SimpleMap.Set, assign, Outcome.ret.injEq, Prod.mk.injEq] at h
    obtain ⟨h1, h2⟩ := h
    subst h2
    exact ⟨h1.symm, by simp [SimpleMap.Get, index_set_self]⟩

/-- Witness of C4 on the store holding 0x01 -> 0xAB, overwritten with the empty value. -/
theorem C4_set_then_get_witness :
    (∃ sm', (SimpleMapFactory (some (.ofList [([1], [0xAB])]))).Set [1] [] = .ret (none, sm')) ∧
    ((⟨some (.ofList [([1], [])])⟩ : SimpleMap).Get [1]).1 = ([], none) :=
  ⟨(C4_set_then_get (SimpleMapFactory (some (.ofList [([1], [0xAB])]))) [1] []).1 (by decide),
   ((C4_set_then_get (SimpleMapFactory (some (.ofList [([1], [0xAB])]))) [1] []).2 none
      ⟨some (.ofList [([1], [])])⟩ (by decide)).2⟩

/-- C5: Get fails exactly on absent keys. `Get(k)` returns an `InvalidKeyError`
carrying `k` if and only if `k` is not a key of the store; if the store holds
`(k, v)` it returns `v` with no error; every `Get` on a store fresh from
`NewSimpleMap()` fails with `InvalidKeyError`; and `Get` leaves the store as it was. -/
theorem C5_get_fails_exactly_on_absent (sm : SimpleMap) (k : Bytes) :
    ((sm.Get k).1.2 = some (.InvalidKeyError k) ↔ k ∉ (entriesOf sm.m).map Prod.fst) ∧
    (k ∉ (entriesOf sm.m).map Prod.fst → (sm.Get k).1 = ([], some (.InvalidKeyError k))) ∧
    (∀ v, (k, v) ∈ entriesOf sm.m → (sm.Get k).1 = (v, none)) ∧
    (NewSimpleMap.Get k).1 = ([], some (.InvalidKeyError k)) ∧
    (sm.Get k).2 = sm := by
  have nd : ((entriesOf sm.m).map Prod.fst).Nodup := by
    rcases sm with ⟨_ | g⟩
    · exact List.nodup_nil
    · exact g.nodup
  have habs : k ∉ (entriesOf sm.m).map Prod.fst →
      (sm.Get k).1 = ([], some (.InvalidKeyError k)) := by
    intro h
    have h1 : index sm.m k = none := lookupEntry_eq_none.mpr h
    simp [SimpleMap.Get, h1]
  refine ⟨⟨fun h => ?_, fun h => by rw [habs h]⟩, habs, fun v hv => ?_, rfl, ?_⟩
  · cases hi : index sm.m k with
    | none => exact lookupEntry_eq_none.mp hi
    | some v => simp [SimpleMap.Get, hi] at h
  · have h1 : index sm.m k = some v := lookupEntry_of_mem nd hv
    simp [SimpleMap.Get, h1]
  · unfold SimpleMap.Get
    cases index sm.m k <;> rfl

/-- Witness of C5: the store holding 0x01 -> 0xAB asked for the absent key 0x02
and for the present key 0x01. -/
theorem C5_get_fails_exactly_on_absent_witness :
    ((⟨some (.ofList [([1], [0xAB])])⟩ : SimpleMap).Get [2]).1 = ([], some (.InvalidKeyError [2])) ∧
    ((⟨some (.ofList [([1], [0xAB])])⟩ : SimpleMap).Get [1]).1 = ([0xAB], none) :=
  ⟨(C5_get_fails_exactly_on_absent ⟨some (.ofList [([1], [0xAB])])⟩ [2]).2.1 (by decide),
   (C5_get_fails_exactly_on_absent ⟨some (.ofList [([1], [0xAB])])⟩ [1]).2.2.1 [0xAB] (by decide)⟩

/-- C6: Delete of a present key. If `k` is a key of the store, `Delete(k)` returns
no error and a following `Get(k)` fails with an `InvalidKeyError` carrying `k`. -/
theorem C6_delete_present (sm : SimpleMap) (k : Bytes)
    (h : k ∈ (entriesOf sm.m).map Prod.fst) :
    (sm.Delete k).1 = none ∧
    ((sm.Delete k).2.Get k).1 = ([], some (.InvalidKeyError k)) := by
  cases hi : index sm.m k with
  | none => exact absurd h (lookupEntry_eq_none.mp hi)
  | some v => simp [SimpleMap.Delete, hi, SimpleMap.Get, index_deleteKey_self]

/-- Witness of C6 on the store holding 0x01 -> 0xAB. -/
theorem C6_delete_present_witness :
    ((⟨some (.ofList [([1], [0xAB])])⟩ : SimpleMap).Delete [1]).1 = none ∧
    ((((⟨some (.ofList [([1], [0xAB])])⟩ : SimpleMap).Delete [1]).2).Get [1]).1
      = ([], some (.InvalidKeyError [1])) :=
  C6_delete_present ⟨some (.ofList [([1], [0xAB])])⟩ [1] (by decide)

/-- C7: Delete of an absent key. If `k` is not a key of the store, `Delete(k)`
returns an `InvalidKeyError` carrying `k` and the store after the call is the
store before the call. -/
theorem C7_delete_absent (sm : SimpleMap) (k : Bytes)
    (h : k ∉ (entriesOf sm.m).map Prod.fst) :
    (sm.Delete k).1 = some (.InvalidKeyError k) ∧ (sm.Delete k).2 = sm := by
  have h1 : index sm.m k = none := lookupEntry_eq_none.mpr h
  simp [SimpleMap.Delete, h1]

/-- Witness of C7 on the store holding 0x01 -> 0xAB, asked to delete 0x02. -/
theorem C7_delete_absent_witness :
    ((⟨some (.ofList [([1], [0xAB])])⟩ : SimpleMap).Delete [2]).1 = some (.InvalidKeyError [2]) ∧
    ((⟨some (.ofList [([1], [0xAB])])⟩ : SimpleMap).Delete [2]).2
      = ⟨some (.ofList [([1], [0xAB])])⟩ :=
  C7_delete_absent ⟨some (.ofList [([1], [0xAB])])⟩ [2] (by decide)

/-- C9: Overwrite semantics. On a store whose internal map is allocated,
`Set(k, v1)` and then `Set(k, v2)` both return with no error; and whenever the
two calls have returned, `Get(k)` returns `v2` with no error and the store holds
exactly one entry for `k`. -/
theorem C9_overwrite (sm : SimpleMap) (k v1 v2 : Bytes) :
    (sm.m ≠ none → ∃ sm1 sm2, sm.Set k v1 = .ret (none, sm1) ∧ sm1.Set k v2 = .ret (none, sm2)) ∧
    (∀ e1 sm1 e2 sm2, sm.Set k v1 = .ret (e1, sm1) → sm1.Set k v2 = .ret (e2, sm2) →
      (sm2.Get k).1 = (v2, none) ∧ ((entriesOf sm2.m).map Prod.fst).count k = 1) := by
  rcases sm with ⟨_ | g⟩
  · exact ⟨fun h => absurd rfl h, fun e1 sm1 e2 sm2 h => by simp [SimpleMap.Set, assign] at h⟩
  · refine ⟨fun _ => ⟨_, _, rfl, rfl⟩, fun e1 sm1 e2 sm2 h1 h2 => ?_⟩
    simp only [SimpleMap.Set, assign, Outcome.ret.injEq, Prod.mk.injEq] at h1
    obtain ⟨-, h1⟩ := h1
    subst h1
    simp only [SimpleMap.Set, assign, Outcome.ret.injEq, Prod.mk.injEq] at h2
    obtain ⟨-, h2⟩ := h2
    subst h2
    exact ⟨by simp [SimpleMap.Get, index_set_self], count_key_set _ k v2⟩

/-- Witness of C9 on a fresh store: 0x01 set to 0xAB and then to 0xCD. -/
theorem C9_overwrite_witness :
    (∃ sm1 sm2, NewSimpleMap.Set [1] [0xAB] = .ret (none, sm1) ∧
      sm1.Set [1] [0xCD] = .ret (none, sm2)) ∧
    ((⟨some (.ofList [([1], [0xCD])])⟩ : SimpleMap).Get [1]).1 = ([0xCD], none) ∧
    ((entriesOf (⟨some (.ofList [([1], [0xCD])])⟩ : SimpleMap).m).map Prod.fst).count [1] = 1 :=
  ⟨(C9_overwrite NewSimpleMap [1] [0xAB] [0xCD]).1 (by decide),
   (C9_overwrite NewSimpleMap [1] [0xAB] [0xCD]).2 none ⟨some (.ofList [([1], [0xAB])])⟩
      none ⟨some (.ofList [([1], [0xCD])])⟩ (by decide) (by decide)⟩

/-! ## Hexadecimal strings -/

set_option maxRecDepth 100000 in
theorem fromHexChar_hextable : ∀ v : Byte,
    fromHexChar (hextable.getD (v.val / 16) 0) = some (v.val / 16) ∧
    fromHexChar (hextable.getD (v.val % 16) 0) = some (v.val % 16) ∧
    (Fin.ofNat (v.val / 16 * 16 + v.val % 16) : Byte) = v := by
  decide

theorem hexDecodeString_hexEncodeToString (b : Bytes) :
    hexDecodeString (hexEncodeToString b) = .ok b := by
  induction b with
  | nil => rfl
  | cons v rest ih =>
    obtain ⟨h1, h2, h3⟩ := fromHexChar_hextable v
    simp only [hexEncodeToString, hexEncodeByte, List.cons_append, List.nil_append,
      List.append_eq, hexDecodeString, h1, h2, h3, ih]

theorem hexEncodeToString_injective : Function.Injective hexEncodeToString := by
  intro a b h
  have h1 := hexDecodeString_hexEncodeToString a
  rw [h, hexDecodeString_hexEncodeToString] at h1
  exact (Except.ok.inj h1).symm

/-! ## Loops that fill a map -/

theorem eraseKey_of_not_mem {k : Bytes} {l : List (Bytes × Bytes)}
    (h : k ∉ l.map Prod.fst) : eraseKey k l = l := by
  induction l with
  | nil => rfl
  | cons e rest ih =>
    rw [List.map_cons, List.mem_cons, not_or] at h
    have h1 : e.1 ≠ k := fun h2 => h.1 h2.symm
    rw [eraseKey_cons, if_neg h1, ih h.2]

theorem visit_singleton (ord : RangeOrder) (e : Bytes × Bytes) : ord.visit [e] = [e] :=
  List.perm_singleton.mp (ord.perm [e])

theorem entries_foldl_set (f : Bytes × Bytes → Bytes × Bytes) (l : List (Bytes × Bytes)) :
    ∀ acc : GoMap, (l.map (fun e => (f e).1)).Nodup →
      (∀ e ∈ l, (f e).1 ∉ acc.entries.map Prod.fst) →
      (l.foldl (fun val e => val.set (f e).1 (f e).2) acc).entries
        = (l.map f).reverse ++ acc.entries := by
  induction l with
  | nil => intro acc _ _; rfl
  | cons e rest ih =>
    intro acc hnd hacc
    rw [List.map_cons, List.nodup_cons] at hnd
    have he : (acc.set (f e).1 (f e).2).entries = f e :: acc.entries := by
      simp [GoMap.set, eraseKey_of_not_mem (hacc e (List.mem_cons_self e rest))]
    rw [List.foldl_cons, ih _ hnd.2, he]
    · simp
    · intro e2 h2
      rw [he, List.map_cons, List.mem_cons, not_or]
      refine ⟨fun h3 => hnd.1 ?_, hacc e2 (List.mem_cons_of_mem e h2)⟩
      rw [← h3]
      exact List.mem_map_of_mem (fun e => (f e).1) h2

theorem nodup_keys_entriesOf (m : Option GoMap) : ((entriesOf m).map Prod.fst).Nodup := by
  cases m with
  | none => exact List.nodup_nil
  | some g => exact g.nodup

theorem insertByKey_perm (e : Bytes × Bytes) (l : List (Bytes × Bytes)) :
    (insertByKey e l).Perm (e :: l) := by
  induction l with
  | nil => exact List.Perm.refl _
  | cons x rest ih =>
    by_cases h : bytesLE e.1 x.1 = true
    · simp [insertByKey, h]
    · simp only [insertByKey, h]
      exact ((List.Perm.cons x ih).trans (List.Perm.swap e x rest))

theorem sortByKey_perm (l : List (Bytes × Bytes)) : (sortByKey l).Perm l := by
  induction l with
  | nil => exact List.Perm.refl _
  | cons e rest ih => exact (insertByKey_perm e (sortByKey rest)).trans (List.Perm.cons e ih)

/-! ## MarshalJSON -/

theorem marshalVal_entries (ord : RangeOrder) (sm : SimpleMap) :
    (sm.marshalVal ord).entries
      = ((ord.visit (entriesOf sm.m)).map
          (fun e => (hexEncodeToString e.1, hexEncodeToString e.2))).reverse := by
  have hp := ord.perm (entriesOf sm.m)
  have hnd : ((ord.visit (entriesOf sm.m)).map Prod.fst).Nodup :=
    (List.Perm.nodup_iff (hp.map Prod.fst)).mpr (nodup_keys_entriesOf sm.m)
  have h1 := entries_foldl_set
    (fun e => (hexEncodeToString e.1, hexEncodeToString ((index sm.m e.1).getD [])))
    (ord.visit (entriesOf sm.m)) GoMap.empty
    (by
      have := List.Nodup.map hexEncodeToString_injective hnd
      rwa [List.map_map] at this)
    (by intro e _; simp [GoMap.empty])
  have h2 : ∀ e ∈ ord.visit (entriesOf sm.m),
      (hexEncodeToString e.1, hexEncodeToString ((index sm.m e.1).getD []))
        = (hexEncodeToString e.1, hexEncodeToString e.2) := by
    intro e he
    have h3 : index sm.m e.1 = some e.2 :=
      lookupEntry_of_mem (nodup_keys_entriesOf sm.m) (hp.subset he)
    rw [h3]; rfl
  rw [SimpleMap.marshalVal, h1, List.map_congr_left h2]
  simp [GoMap.empty]

/-- C10: Encode postcondition. The map `val` that `MarshalJSON` hands to
`json.Marshal` holds the pair `(hex(k), hex(v))` for every entry `(k, v)` of the
store and no other pair, and has as many entries as the store; the text returned
is the object whose members are these pairs as strings, with no error, and the
store is left as it was. The store {0x00 -> 0xFF} gives the single entry
"00" -> "ff" and {0x01 -> 0xAB} gives "01" -> "ab". -/
theorem C10_encode_postcondition (ord : RangeOrder) (sm : SimpleMap) :
    (∀ ks vs, (ks, vs) ∈ (sm.marshalVal ord).entries ↔
      ∃ k v, (k, v) ∈ entriesOf sm.m ∧ ks = hexEncodeToString k ∧ vs = hexEncodeToString v) ∧
    (sm.marshalVal ord).entries.length = (entriesOf sm.m).length ∧
    (∃ members, (sm.MarshalJSON ord).1 = (.valid (.object members), none) ∧
      members.Perm ((sm.marshalVal ord).entries.map (fun e => (e.1, JSONValue.string e.2)))) ∧
    (sm.MarshalJSON ord).2 = sm ∧
    (SimpleMap.marshalVal ord ⟨some (.ofList [([0x00], [0xFF])])⟩).entries
      = [(ascii "00", ascii "ff")] ∧
    (SimpleMap.marshalVal ord ⟨some (.ofList [([0x01], [0xAB])])⟩).entries
      = [(ascii "01", ascii "ab")] := by
  have hp := ord.perm (entriesOf sm.m)
  refine ⟨fun ks vs => ?_, ?_, ⟨_, rfl, (sortByKey_perm _).map _⟩, rfl, ?_, ?_⟩
  · rw [marshalVal_entries, List.mem_reverse, List.mem_map]
    constructor
    · rintro ⟨e, he, h⟩
      have h1 := Prod.mk.inj h
      exact ⟨e.1, e.2, hp.subset he, h1.1.symm, h1.2.symm⟩
    · rintro ⟨k, v, he, rfl, rfl⟩
      exact ⟨(k, v), hp.symm.subset he, rfl⟩
  · rw [marshalVal_entries, List.length_reverse, List.length_map, hp.length_eq]
  · have he : entriesOf (SimpleMap.m ⟨some (.ofList [([0x00], [0xFF])])⟩) = [([0x00], [0xFF])] := by
      decide
    rw [marshalVal_entries, he, visit_singleton]
    decide
  · have he : entriesOf (SimpleMap.m ⟨some (.ofList [([0x01], [0xAB])])⟩) = [([0x01], [0xAB])] := by
      decide
    rw [marshalVal_entries, he, visit_singleton]
    decide

/-! ## Set on an allocated and on a nil map -/

theorem unmarshal_allocated (ord : RangeOrder) (sm : SimpleMap) (raw : Raw)
    (h : sm.m ≠ none) (hr : raw ≠ .valid .null) : (sm.UnmarshalJSON ord raw).2.m ≠ none := by
  unfold SimpleMap.UnmarshalJSON
  split
  · exact h
  · rename_i val hv
    split
    · simp
    · rcases raw with _ | (members | _ | _)
      · simp [jsonUnmarshalMap] at hv
      · simp [jsonUnmarshalMap]
      · exact absurd rfl hr
      · simp [jsonUnmarshalMap] at hv

theorem run_allocated (sm : SimpleMap) (c : Call) (h : sm.m ≠ none)
    (hc : ∀ ord, c ≠ .UnmarshalJSON ord (.valid .null)) :
    ∃ sm', c.run sm = .ret sm' ∧ sm'.m ≠ none := by
  rcases sm with ⟨_ | g⟩
  · exact absurd rfl h
  · cases c with
    | Get key =>
      refine ⟨_, rfl, ?_⟩
      unfold SimpleMap.Get
      split <;> simp
    | Set key value => exact ⟨_, rfl, by simp⟩
    | Delete key =>
      refine ⟨_, rfl, ?_⟩
      unfold SimpleMap.Delete
      split <;> simp [deleteKey]
    | MarshalJSON ord => exact ⟨_, rfl, by simp [SimpleMap.MarshalJSON]⟩
    | UnmarshalJSON ord raw =>
      refine ⟨_, rfl, unmarshal_allocated ord _ raw h ?_⟩
      intro hr
      exact hc ord (by rw [hr])

/-- C8, as amended: on a store whose internal map is not nil (one from
`NewSimpleMap()` or from `SimpleMapFactory(m)` with a non-nil `m`), any sequence of
`Get`, `Set`, `Delete`, `MarshalJSON` and `UnmarshalJSON` calls, none of them an
`UnmarshalJSON` of the text `null`, runs without a panic, and on the store it
leaves `Set(k, v)` completes without a panic and returns no error. -/
theorem C8_set_succeeds_on_allocated_map (sm0 : SimpleMap) (calls : List Call) (k v : Bytes)
    (h0 : sm0.m ≠ none)
    (hnull : ∀ ord, Call.UnmarshalJSON ord (.valid .null) ∉ calls) :
    ∃ sm sm', runCalls sm0 calls = .ret sm ∧ sm.Set k v = .ret (none, sm') := by
  induction calls generalizing sm0 with
  | nil =>
    rcases sm0 with ⟨_ | g⟩
    · exact absurd rfl h0
    · exact ⟨_, _, rfl, rfl⟩
  | cons c rest ih =>
    obtain ⟨sm1, h1, h2⟩ := run_allocated sm0 c h0
      (fun ord hc => hnull ord (hc ▸ List.mem_cons_self c rest))
    obtain ⟨sm, sm', h3, h4⟩ := ih sm1 h2
      (fun ord hc => hnull ord (List.mem_cons_of_mem c hc))
    exact ⟨sm, sm', by rw [runCalls, h1]; exact h3, h4⟩

/-- Witness of C8 as amended: a fresh store after `Set`, a failing `Delete` and an
`UnmarshalJSON` of an object. -/
theorem C8_set_succeeds_on_allocated_map_witness :
    ∃ sm sm', runCalls NewSimpleMap
        [.Set [1] [2], .Delete [3], .UnmarshalJSON .listed (objectText [("00", "")])] = .ret sm ∧
      sm.Set [1] [2] = .ret (none, sm') :=
  C8_set_succeeds_on_allocated_map NewSimpleMap
    [.Set [1] [2], .Delete [3], .UnmarshalJSON .listed (objectText [("00", "")])] [1] [2]
    (by decide) (by
      intro ord h
      simp [objectText] at h)

/-- C8 as stated fails: `Set` on the store `SimpleMapFactory(nil)` panics, and so
does `Set` on a fresh store after a successful `UnmarshalJSON` of the text `null`. -/
theorem C8_counterexample :
    (SimpleMapFactory none).Set [0] [1] = .panic ∧
    (NewSimpleMap.UnmarshalJSON .listed (.valid .null)).1 = none ∧
    (NewSimpleMap.UnmarshalJSON .listed (.valid .null)).2.Set [0] [1] = .panic := by
  decide

/-! ## The round trip through MarshalJSON and UnmarshalJSON -/

/-- C1: the round trip fails on the store {0x00 -> 0xFF}. `MarshalJSON` returns
the object with the single member "00": "ff"; `UnmarshalJSON` of that text, on
any store and for any iteration order, returns the base64 error of the final
`json.Unmarshal(raw, &sm.m)` and leaves the two entries 0x00 -> 0xFF and
"00" -> (nil) in the store. -/
theorem C1_round_trip_fails (ord1 ord2 : RangeOrder) (sm : SimpleMap) :
    (SimpleMap.MarshalJSON ord1 ⟨some (.ofList [([0x00], [0xFF])])⟩).1
      = (objectText [("00", "ff")], none) ∧
    sm.UnmarshalJSON ord2 (objectText [("00", "ff")])
      = (some .CorruptInputError, ⟨some (.ofList [([0x00], [0xFF]), (ascii "00", [])])⟩) := by
  constructor
  · have he : entriesOf (SimpleMap.m ⟨some (.ofList [([0x00], [0xFF])])⟩) = [([0x00], [0xFF])] := by
      decide
    rw [SimpleMap.MarshalJSON, SimpleMap.marshalVal, he, visit_singleton]
    decide
  · have hv : jsonUnmarshalMap stringElem (objectText [("00", "ff")]) none
        = (some (.ofList [(ascii "00", ascii "ff")]), none) := by decide
    have he : entriesOf (some (GoMap.ofList [(ascii "00", ascii "ff")]))
        = [(ascii "00", ascii "ff")] := by decide
    simp only [SimpleMap.UnmarshalJSON, hv, he, visit_singleton]
    decide

/-! ## Errors of the decoders -/

theorem hexDecodeString_error {s : Bytes} {e : Error} (h : hexDecodeString s = .error e) :
    e = .ErrLength ∨ ∃ b, e = .InvalidByteError b := by
  induction s using hexDecodeString.induct with
  | case1 => simp [hexDecodeString] at h
  | case2 p hp => simp [hexDecodeString, hp] at h; exact Or.inr ⟨p, h.symm⟩
  | case3 p x hp => simp [hexDecodeString, hp] at h; exact Or.inl h.symm
  | case4 p q rest hp => simp [hexDecodeString, hp] at h; exact Or.inr ⟨p, h.symm⟩
  | case5 p q rest a ha hq => simp [hexDecodeString, ha, hq] at h; exact Or.inr ⟨q, h.symm⟩
  | case6 p q rest a ha b hb e2 he ih =>
    simp [hexDecodeString, ha, hb, he] at h; subst h; exact ih he
  | case7 p q rest a ha b hb bs hbs ih => simp [hexDecodeString, ha, hb, hbs] at h

theorem base64DecodeFrom_error (s : Bytes) :
    ∀ (d : List Nat) (e : Error), base64DecodeFrom s d = .error e → e = .CorruptInputError := by
  induction s with
  | nil =>
    intro d e h
    simp only [base64DecodeFrom] at h
    split at h <;> simp_all
  | cons c rest ih =>
    intro d e h
    simp only [base64DecodeFrom] at h
    repeat' split at h
    all_goals first
      | exact (Except.error.inj h).symm
      | exact ih _ _ h
      | (rename_i h2; rw [← Except.error.inj h]; exact ih _ _ h2)
      | simp at h

theorem storeMembers_saved (elem : JSONValue → Bytes × Option Error)
    (l : List (Bytes × JSONValue)) :
    ∀ (m : GoMap) (e : Error), (storeMembers elem l (m, some e)).2 = some e := by
  induction l with
  | nil => intro m e; rfl
  | cons x rest ih => intro m e; rcases x with ⟨name, value⟩; exact ih _ e

theorem storeMembers_error (elem : JSONValue → Bytes × Option Error)
    (l : List (Bytes × JSONValue)) :
    ∀ (m : GoMap) (e : Error), (storeMembers elem l (m, none)).2 = some e →
      ∃ x ∈ l, (elem x.2).2 = some e := by
  induction l with
  | nil => intro m e h; simp [storeMembers] at h
  | cons x rest ih =>
    intro m e h
    rcases x with ⟨name, value⟩
    simp only [storeMembers] at h
    cases hv : (elem value).2 with
    | none =>
      rw [hv] at h
      obtain ⟨y, hy, hy2⟩ := ih _ e h
      exact ⟨y, List.mem_cons_of_mem _ hy, hy2⟩
    | some e2 =>
      rw [hv, storeMembers_saved] at h
      exact ⟨(name, value), List.mem_cons_self _ _, by rw [hv, h]⟩

theorem storeMembers_no_error (elem : JSONValue → Bytes × Option Error)
    (l : List (Bytes × JSONValue)) :
    ∀ (m : GoMap), (storeMembers elem l (m, none)).2 = none →
      ∀ x ∈ l, (elem x.2).2 = none := by
  induction l with
  | nil => intro m _ x hx; simp at hx
  | cons y rest ih =>
    intro m h x hx
    rcases y with ⟨name, value⟩
    simp only [storeMembers] at h
    cases hv : (elem value).2 with
    | none =>
      rw [hv] at h
      rcases List.mem_cons.mp hx with h1 | h1
      · rw [h1]; exact hv
      · exact ih _ h x h1
    | some e2 =>
      rw [hv, storeMembers_saved] at h
      simp at h

/-! ## The loop of UnmarshalJSON -/

theorem mem_entries_set {m : GoMap} {k v : Bytes} {x : Bytes × Bytes}
    (h : x ∈ (m.set k v).entries) : x = (k, v) ∨ x ∈ m.entries := by
  rcases List.mem_cons.mp h with h1 | h1
  · exact Or.inl h1
  · exact Or.inr (List.mem_of_mem_filter h1)

theorem decodeLoop_error (val : Option GoMap) (l : List (Bytes × Bytes)) :
    ∀ (m : GoMap) (e : Error), (SimpleMap.decodeLoop val l m).2 = some e →
      e = .ErrLength ∨ ∃ b, e = .InvalidByteError b := by
  induction l with
  | nil => intro m e h; simp [SimpleMap.decodeLoop] at h
  | cons x rest ih =>
    intro m e h
    simp only [SimpleMap.decodeLoop] at h
    split at h
    · rename_i err h1
      simp only [Option.some.injEq] at h
      exact h ▸ hexDecodeString_error h1
    · split at h
      · rename_i err h1
        simp only [Option.some.injEq] at h
        exact h ▸ hexDecodeString_error h1
      · exact ih _ e h

theorem decodeLoop_entries (val : Option GoMap) (l : List (Bytes × Bytes)) :
    ∀ (m : GoMap) (k v : Bytes), (k, v) ∈ (SimpleMap.decodeLoop val l m).1.entries →
      (k, v) ∈ m.entries ∨
      ∃ x ∈ l, hexDecodeString x.1 = .ok k ∧
        hexDecodeString ((index val x.1).getD []) = .ok v := by
  induction l with
  | nil => intro m k v h; exact Or.inl h
  | cons x rest ih =>
    intro m k v h
    simp only [SimpleMap.decodeLoop] at h
    split at h
    · exact Or.inl h
    · rename_i key hkey
      split at h
      · exact Or.inl h
      · rename_i value hvalue
        rcases ih _ k v h with h1 | ⟨y, hy, h2⟩
        · rcases mem_entries_set h1 with h3 | h3
          · obtain ⟨rfl, rfl⟩ := Prod.mk.inj h3
            exact Or.inr ⟨x, List.mem_cons_self _ _, hkey, hvalue⟩
          · exact Or.inl h3
        · exact Or.inr ⟨y, List.mem_cons_of_mem _ hy, h2⟩

theorem decodeLoop_entry_ok (val : Option GoMap) (l : List (Bytes × Bytes)) :
    ∀ (m0 m : GoMap), SimpleMap.decodeLoop val l m0 = (m, none) →
      ∀ x ∈ l, (∃ k, hexDecodeString x.1 = .ok k) ∧
        ∃ v, hexDecodeString ((index val x.1).getD []) = .ok v := by
  induction l with
  | nil => intro m0 m _ x hx; simp at hx
  | cons y rest ih =>
    intro m0 m h x hx
    simp only [SimpleMap.decodeLoop] at h
    split at h
    · simp at h
    · rename_i key hkey
      split at h
      · simp at h
      · rename_i value hvalue
        rcases List.mem_cons.mp hx with rfl | hx
        · exact ⟨⟨key, hkey⟩, ⟨value, hvalue⟩⟩
        · exact ih _ m h x hx

/-- C2, as amended: when the outer parse of `UnmarshalJSON` (the text into a
`map[string]string`) fails, the call returns the parser's error and the store is
exactly as before the call. When the outer parse succeeds and a key string or a
value string of the parsed mapping is rejected by `hex.DecodeString`, the call
returns an error of `hex.DecodeString` (`ErrLength` or `InvalidByteError`) and
the prior contents are gone: the internal map is a new, non-nil map, and each of
its entries is `(hexdecode(ks), hexdecode(vs))` for an entry `(ks, vs)` of the
parsed mapping. -/
theorem C2_decode_error_effect (ord : RangeOrder) (sm : SimpleMap) (raw : Raw) :
    (∀ e, (jsonUnmarshalMap stringElem raw none).2 = some e →
      sm.UnmarshalJSON ord raw = (some e, sm)) ∧
    (∀ ks vs, (jsonUnmarshalMap stringElem raw none).2 = none →
      (ks, vs) ∈ entriesOf (jsonUnmarshalMap stringElem raw none).1 →
      ((∀ b, hexDecodeString ks ≠ .ok b) ∨ (∀ b, hexDecodeString vs ≠ .ok b)) →
      (∃ e, (sm.UnmarshalJSON ord raw).1 = some e ∧
        (e = .ErrLength ∨ ∃ b, e = .InvalidByteError b)) ∧
      (sm.UnmarshalJSON ord raw).2.m ≠ none ∧
      ∀ k v, (k, v) ∈ entriesOf (sm.UnmarshalJSON ord raw).2.m →
        ∃ ks2 vs2, (ks2, vs2) ∈ entriesOf (jsonUnmarshalMap stringElem raw none).1 ∧
          hexDecodeString ks2 = .ok k ∧ hexDecodeString vs2 = .ok v) := by
  cases h1 : jsonUnmarshalMap stringElem raw none with
  | mk val err1 =>
  constructor
  · intro e he
    simp only at he
    subst he
    simp [SimpleMap.UnmarshalJSON, h1]
  · intro ks vs hnone hmem hbad
    simp only at hnone hmem
    subst hnone
    cases h2 : SimpleMap.decodeLoop val (ord.visit (entriesOf val)) GoMap.empty with
    | mk m err2 =>
    cases err2 with
    | none =>
      exfalso
      have hdec := decodeLoop_entry_ok val _ _ m h2 (ks, vs)
        ((ord.perm _).symm.subset hmem)
      rw [show index val ks = some vs from
        lookupEntry_of_mem (nodup_keys_entriesOf val) hmem] at hdec
      obtain ⟨⟨k, hk⟩, ⟨v, hv⟩⟩ := hdec
      rcases hbad with hb | hb
      · exact hb k hk
      · exact hb v hv
    | some e2 =>
      have hu : sm.UnmarshalJSON ord raw = (some e2, ⟨some m⟩) := by
        simp [SimpleMap.UnmarshalJSON, h1, h2]
      rw [hu]
      refine ⟨⟨e2, rfl, decodeLoop_error val _ _ _ (congrArg Prod.snd h2)⟩, by simp,
        fun k v hkv => ?_⟩
      have hm : (k, v) ∈
          (SimpleMap.decodeLoop val (ord.visit (entriesOf val)) GoMap.empty).1.entries := by
        rw [h2]; exact hkv
      rcases decodeLoop_entries val _ _ k v hm with h3 | ⟨x, hx, h3, h4⟩
      · simp [GoMap.empty] at h3
      · have hx2 : x ∈ entriesOf val := (ord.perm _).subset hx
        have h5 : index val x.1 = some x.2 :=
          lookupEntry_of_mem (nodup_keys_entriesOf val) hx2
        rw [h5] at h4
        exact ⟨x.1, x.2, hx2, h3, h4⟩

/-- Witness of C2 as amended: the store {0x01 -> 0x02} given a text that is not
JSON, and given the object with the single member "zz": "00". -/
theorem C2_decode_error_effect_witness :
    (⟨some (.ofList [([1], [2])])⟩ : SimpleMap).UnmarshalJSON .listed .invalid
      = (some .SyntaxError, ⟨some (.ofList [([1], [2])])⟩) ∧
    (∃ e, ((⟨some (.ofList [([1], [2])])⟩ : SimpleMap).UnmarshalJSON .listed
        (objectText [("zz", "00")])).1 = some e ∧
      (e = .ErrLength ∨ ∃ b, e = .InvalidByteError b)) ∧
    ((⟨some (.ofList [([1], [2])])⟩ : SimpleMap).UnmarshalJSON .listed
        (objectText [("zz", "00")])).2.m ≠ none ∧
    (([1], [2]) : Bytes × Bytes) ∉
      entriesOf ((⟨some (.ofList [([1], [2])])⟩ : SimpleMap).UnmarshalJSON .listed
        (objectText [("zz", "00")])).2.m := by
  have hz : hexDecodeString (ascii "zz") = .error (.InvalidByteError 122) := by decide
  have h2 := (C2_decode_error_effect .listed ⟨some (.ofList [([1], [2])])⟩
    (objectText [("zz", "00")])).2 (ascii "zz") (ascii "00") (by decide) (by decide)
    (Or.inl (fun b hb => by rw [hz] at hb; cases hb))
  refine ⟨(C2_decode_error_effect .listed ⟨some (.ofList [([1], [2])])⟩ .invalid).1
    .SyntaxError (by decide), h2.1, h2.2.1, fun hin => ?_⟩
  obtain ⟨ks2, vs2, hmem, hk, -⟩ := h2.2.2 [1] [2] hin
  have hval : entriesOf (jsonUnmarshalMap stringElem (objectText [("zz", "00")]) none).1
      = [(ascii "zz", ascii "00")] := by decide
  rw [hval, List.mem_singleton] at hmem
  obtain ⟨rfl, -⟩ := Prod.mk.inj hmem
  rw [hz] at hk
  cases hk

/-- C2 as stated fails: on the store {0x01 -> 0x02}, `UnmarshalJSON` of the object
with the single member "zz": "00" returns `InvalidByteError` for the byte `z`,
and the store, which held 0x01 -> 0x02 before the call, is empty after it. -/
theorem C2_counterexample :
    ((⟨some (.ofList [([1], [2])])⟩ : SimpleMap).UnmarshalJSON .listed
        (objectText [("zz", "00")])).1 = some (.InvalidByteError 122) ∧
    ((⟨some (.ofList [([1], [2])])⟩ : SimpleMap).Get [1]).1 = ([2], none) ∧
    ((⟨some (.ofList [([1], [2])])⟩ : SimpleMap).UnmarshalJSON .listed
        (objectText [("zz", "00")])).2 = ⟨some GoMap.empty⟩ ∧
    ((((⟨some (.ofList [([1], [2])])⟩ : SimpleMap).UnmarshalJSON .listed
        (objectText [("zz", "00")])).2).Get [1]).1 = ([], some (.InvalidKeyError [1])) := by
  decide

/-! ## The store after a successful UnmarshalJSON -/

theorem lookupEntry_set (m : GoMap) (k v k2 : Bytes) :
    lookupEntry k2 (m.set k v).entries = if k = k2 then some v else lookupEntry k2 m.entries := by
  by_cases h : k = k2
  · simp [GoMap.set, lookupEntry, h]
  · have h2 : k2 ≠ k := fun h3 => h h3.symm
    simp [GoMap.set, lookupEntry, h, lookupEntry_eraseKey_ne h2]

theorem decodeLoop_ok (val : Option GoMap) (l : List (Bytes × Bytes)) :
    ∀ (m0 m : GoMap), SimpleMap.decodeLoop val l m0 = (m, none) →
      (∀ x ∈ l, ∃ k, hexDecodeString x.1 = .ok k ∧
        ∃ y ∈ l, ∃ v, hexDecodeString y.1 = .ok k ∧
          hexDecodeString ((index val y.1).getD []) = .ok v ∧
          lookupEntry k m.entries = some v) ∧
      (∀ k, (∀ x ∈ l, hexDecodeString x.1 ≠ .ok k) →
        lookupEntry k m.entries = lookupEntry k m0.entries) := by
  induction l with
  | nil =>
    intro m0 m h
    simp only [SimpleMap.decodeLoop, Prod.mk.injEq, and_true] at h
    subst h
    exact ⟨fun x hx => absurd hx (List.not_mem_nil x), fun k _ => rfl⟩
  | cons x rest ih =>
    intro m0 m h
    simp only [SimpleMap.decodeLoop] at h
    split at h
    · simp at h
    · rename_i key hkey
      split at h
      · simp at h
      · rename_i value hvalue
        obtain ⟨ih1, ih2⟩ := ih _ m h
        refine ⟨fun y hy => ?_, fun k hk => ?_⟩
        · rcases List.mem_cons.mp hy with rfl | hy
          · refine ⟨key, hkey, ?_⟩
            by_cases hex : ∃ z ∈ rest, hexDecodeString z.1 = .ok key
            · obtain ⟨z, hz, hz2⟩ := hex
              obtain ⟨k2, hk2, w, hw, v, hw1, hw2, hw3⟩ := ih1 z hz
              rw [hz2] at hk2
              obtain rfl := Except.ok.inj hk2
              exact ⟨w, List.mem_cons_of_mem _ hw, v, hw1, hw2, hw3⟩
            · refine ⟨y, List.mem_cons_self _ _, value, hkey, hvalue, ?_⟩
              rw [ih2 key (fun z hz hz2 => hex ⟨z, hz, hz2⟩), lookupEntry_set, if_pos rfl]
          · obtain ⟨k2, hk2, w, hw, v, hw1, hw2, hw3⟩ := ih1 y hy
            exact ⟨k2, hk2, w, List.mem_cons_of_mem _ hw, v, hw1, hw2, hw3⟩
        · rw [ih2 k (fun z hz => hk z (List.mem_cons_of_mem _ hz)), lookupEntry_set]
          have hne : key ≠ k := by
            intro h3
            exact hk x (List.mem_cons_self _ _) (h3 ▸ hkey)
          rw [if_neg hne]

theorem storeMembers_lookup_ne (elem : JSONValue → Bytes × Option Error)
    (l : List (Bytes × JSONValue)) :
    ∀ (acc : GoMap × Option Error) (k : Bytes), k ∉ l.map Prod.fst →
      lookupEntry k (storeMembers elem l acc).1.entries = lookupEntry k acc.1.entries := by
  induction l with
  | nil => intro acc k _; rfl
  | cons x rest ih =>
    intro acc k hk
    rcases x with ⟨name, value⟩
    rcases acc with ⟨m, saved⟩
    rw [List.map_cons, List.mem_cons, not_or] at hk
    simp only [storeMembers]
    rw [ih _ k hk.2, lookupEntry_set, if_neg (fun h => hk.1 h.symm)]

theorem storeMembers_keys_mono (elem : JSONValue → Bytes × Option Error)
    (l : List (Bytes × JSONValue)) :
    ∀ (acc : GoMap × Option Error) (k : Bytes), lookupEntry k acc.1.entries ≠ none →
      lookupEntry k (storeMembers elem l acc).1.entries ≠ none := by
  induction l with
  | nil => intro acc k h; exact h
  | cons x rest ih =>
    intro acc k hk
    rcases x with ⟨name, value⟩
    rcases acc with ⟨m, saved⟩
    simp only [storeMembers]
    refine ih _ k ?_
    rw [lookupEntry_set]
    split
    · simp
    · exact hk

theorem storeMembers_names (elem : JSONValue → Bytes × Option Error)
    (l : List (Bytes × JSONValue)) :
    ∀ (acc : GoMap × Option Error) (k : Bytes), k ∈ l.map Prod.fst →
      lookupEntry k (storeMembers elem l acc).1.entries ≠ none := by
  induction l with
  | nil => intro acc k h; simp at h
  | cons x rest ih =>
    intro acc k hk
    rcases x with ⟨name, value⟩
    rcases acc with ⟨m, saved⟩
    simp only [storeMembers]
    rcases List.mem_cons.mp hk with h1 | h1
    · refine storeMembers_keys_mono elem rest _ k ?_
      rw [lookupEntry_set, if_pos h1.symm]
      simp
    · exact ih _ k h1

/-- C3, as amended: when `UnmarshalJSON` succeeds on the text of an object, then
for every entry `(ks, vs)` of the parsed object the key `hexdecode(ks)` is in the
resulting store; and, apart from the keys whose bytes are themselves a key string
of the parsed object, the resulting store contains exactly the pairs
`(hexdecode(ks), hexdecode(vs))` of the entries of the parsed object and nothing
else, one pair only for several key strings that decode to the same bytes: for
such a key `Get` returns the value `hexdecode(vs')` of an entry `(ks', vs')` whose
key string decodes to the same bytes as `ks`, which is `hexdecode(vs)` when no
other key string does, and every entry of the store under a key that is not a
key string of the object is `(hexdecode(ks), hexdecode(vs))` for an entry
`(ks, vs)` of the parsed object. -/
theorem C3_decode_postcondition (ord : RangeOrder) (sm : SimpleMap)
    (members : List (Bytes × JSONValue))
    (h : (sm.UnmarshalJSON ord (.valid (.object members))).1 = none) :
    (∀ ks vs,
      (ks, vs) ∈ entriesOf (jsonUnmarshalMap stringElem (.valid (.object members)) none).1 →
      ∃ k, hexDecodeString ks = .ok k ∧
        k ∈ (entriesOf (sm.UnmarshalJSON ord (.valid (.object members))).2.m).map Prod.fst ∧
        (k ∉ (entriesOf (jsonUnmarshalMap stringElem (.valid (.object members)) none).1).map
              Prod.fst →
          (∃ ks' vs' v,
            (ks', vs') ∈ entriesOf (jsonUnmarshalMap stringElem (.valid (.object members)) none).1 ∧
            hexDecodeString ks' = .ok k ∧ hexDecodeString vs' = .ok v ∧
            ((sm.UnmarshalJSON ord (.valid (.object members))).2.Get k).1 = (v, none)) ∧
          ((∀ ks' vs',
              (ks', vs') ∈ entriesOf (jsonUnmarshalMap stringElem (.valid (.object members)) none).1 →
              hexDecodeString ks' = .ok k → ks' = ks) →
            ∃ v, hexDecodeString vs = .ok v ∧
              ((sm.UnmarshalJSON ord (.valid (.object members))).2.Get k).1 = (v, none)))) ∧
    (∀ k v, (k, v) ∈ entriesOf (sm.UnmarshalJSON ord (.valid (.object members))).2.m →
      k ∉ (entriesOf (jsonUnmarshalMap stringElem (.valid (.object members)) none).1).map
            Prod.fst →
      ∃ ks vs,
        (ks, vs) ∈ entriesOf (jsonUnmarshalMap stringElem (.valid (.object members)) none).1 ∧
        hexDecodeString ks = .ok k ∧ hexDecodeString vs = .ok v) := by
  constructor
  · intro ks vs hmem
    cases h1 : jsonUnmarshalMap stringElem (.valid (.object members)) none with
    | mk val err1 =>
    rw [h1] at hmem
    cases err1 with
    | some e1 => simp [SimpleMap.UnmarshalJSON, h1] at h
    | none =>
      cases h2 : SimpleMap.decodeLoop val (ord.visit (entriesOf val)) GoMap.empty with
      | mk m err2 =>
      cases err2 with
      | some e2 => simp [SimpleMap.UnmarshalJSON, h1, h2] at h
      | none =>
        have hu : (sm.UnmarshalJSON ord (.valid (.object members))).2
            = ⟨some (storeMembers bytesElem members (m, none)).1⟩ := by
          simp only [SimpleMap.UnmarshalJSON, h1, h2]
          simp [jsonUnmarshalMap]
        have hval : val = some (storeMembers stringElem members (GoMap.empty, none)).1 := by
          simp only [jsonUnmarshalMap, Prod.mk.injEq] at h1
          exact h1.1.symm
        have hnd := nodup_keys_entriesOf val
        obtain ⟨hl, -⟩ := decodeLoop_ok val _ _ m h2
        obtain ⟨k, hk, y, hy, v, hy1, hy2, hy3⟩ :=
          hl (ks, vs) ((ord.perm _).symm.subset hmem)
        have hy4 : y ∈ entriesOf val := (ord.perm _).subset hy
        rw [show index val y.1 = some y.2 from lookupEntry_of_mem hnd hy4] at hy2
        refine ⟨k, hk, ?_, fun hnot => ?_⟩
        · rw [hu]
          have h3 : lookupEntry k (storeMembers bytesElem members (m, none)).1.entries ≠ none :=
            storeMembers_keys_mono bytesElem members (m, none) k (by rw [hy3]; simp)
          by_contra h4
          exact h3 (lookupEntry_eq_none.mpr h4)
        · have hnames : k ∉ members.map Prod.fst := by
            intro h5
            apply hnot
            rw [hval]
            by_contra h6
            exact storeMembers_names stringElem members (GoMap.empty, none) k h5
              (lookupEntry_eq_none.mpr h6)
          have hget : ((sm.UnmarshalJSON ord (.valid (.object members))).2.Get k).1 = (v, none) := by
            rw [hu]
            have h7 : index (some (storeMembers bytesElem members (m, none)).1) k = some v := by
              simp only [index, entriesOf]
              rw [storeMembers_lookup_ne bytesElem members (m, none) k hnames]
              exact hy3
            simp [SimpleMap.Get, h7]
          refine ⟨⟨y.1, y.2, v, hy4, hy1, hy2, hget⟩, fun huniq => ?_⟩
          have h8 : y.1 = ks := huniq y.1 y.2 hy4 hy1
          have h9 : lookupEntry ks (entriesOf val) = some y.2 := by
            rw [← h8]; exact lookupEntry_of_mem hnd hy4
          rw [lookupEntry_of_mem hnd hmem] at h9
          obtain rfl := Option.some.inj h9
          exact ⟨v, hy2, hget⟩
  · intro k v hkv hnot
    cases h1 : jsonUnmarshalMap stringElem (.valid (.object members)) none with
    | mk val err1 =>
    rw [h1] at hnot
    cases err1 with
    | some e1 => simp [SimpleMap.UnmarshalJSON, h1] at h
    | none =>
      cases h2 : SimpleMap.decodeLoop val (ord.visit (entriesOf val)) GoMap.empty with
      | mk m err2 =>
      cases err2 with
      | some e2 => simp [SimpleMap.UnmarshalJSON, h1, h2] at h
      | none =>
        have hu : (sm.UnmarshalJSON ord (.valid (.object members))).2
            = ⟨some (storeMembers bytesElem members (m, none)).1⟩ := by
          simp only [SimpleMap.UnmarshalJSON, h1, h2]
          simp [jsonUnmarshalMap]
        have hval : val = some (storeMembers stringElem members (GoMap.empty, none)).1 := by
          simp only [jsonUnmarshalMap, Prod.mk.injEq] at h1
          exact h1.1.symm
        have hnames : k ∉ members.map Prod.fst := by
          intro h5
          apply hnot
          rw [hval]
          by_contra h6
          exact storeMembers_names stringElem members (GoMap.empty, none) k h5
            (lookupEntry_eq_none.mpr h6)
        rw [hu] at hkv
        have hl : lookupEntry k (storeMembers bytesElem members (m, none)).1.entries = some v :=
          lookupEntry_of_mem (storeMembers bytesElem members (m, none)).1.nodup hkv
        rw [storeMembers_lookup_ne bytesElem members (m, none) k hnames] at hl
        have hm : (k, v) ∈
            (SimpleMap.decodeLoop val (ord.visit (entriesOf val)) GoMap.empty).1.entries := by
          rw [h2]; exact mem_of_lookupEntry hl
        rcases decodeLoop_entries val _ _ k v hm with h3 | ⟨x, hx, h3, h4⟩
        · simp [GoMap.empty] at h3
        · have hx2 : x ∈ entriesOf val := (ord.perm _).subset hx
          rw [show index val x.1 = some x.2 from
            lookupEntry_of_mem (nodup_keys_entriesOf val) hx2] at h4
          exact ⟨x.1, x.2, hx2, h3, h4⟩

/-- Witness of C3 as amended: the store {0x07 -> 0x08} decoding the object with
the single member "01": "abcd"; `Get` of 0x01 returns 0xAB 0xCD and the entry
0x07 -> 0x08 is no longer in the store. -/
theorem C3_decode_postcondition_witness :
    ((⟨some (.ofList [([7], [8])])⟩ : SimpleMap).UnmarshalJSON .listed
        (objectText [("01", "abcd")])).1 = none ∧
    (((⟨some (.ofList [([7], [8])])⟩ : SimpleMap).UnmarshalJSON .listed
        (objectText [("01", "abcd")])).2.Get [0x01]).1 = ([0xAB, 0xCD], none) ∧
    (([7], [8]) : Bytes × Bytes) ∉
      entriesOf ((⟨some (.ofList [([7], [8])])⟩ : SimpleMap).UnmarshalJSON .listed
        (objectText [("01", "abcd")])).2.m := by
  have hval : entriesOf (jsonUnmarshalMap stringElem
      (.valid (.object [(ascii "01", .string (ascii "abcd"))])) none).1
      = [(ascii "01", ascii "abcd")] := by decide
  have hk1 : hexDecodeString (ascii "01") = .ok [0x01] := by decide
  have hthm := C3_decode_postcondition .listed ⟨some (.ofList [([7], [8])])⟩
    [(ascii "01", .string (ascii "abcd"))] (by decide)
  refine ⟨by decide, ?_, fun hin => ?_⟩
  · obtain ⟨k, hk, -, himp⟩ := hthm.1 (ascii "01") (ascii "abcd") (by decide)
    rw [hk1] at hk
    obtain rfl := Except.ok.inj hk
    rw [hval] at himp
    obtain ⟨v, hv, hget⟩ := (himp (by decide)).2 (by
      intro ks' vs' hm _
      rw [List.mem_singleton] at hm
      exact (Prod.mk.inj hm).1)
    have hv1 : hexDecodeString (ascii "abcd") = .ok [0xAB, 0xCD] := by decide
    rw [hv1] at hv
    obtain rfl := Except.ok.inj hv
    exact hget
  · obtain ⟨ks, vs, hmem, hk, -⟩ := hthm.2 [7] [8] hin (by rw [hval]; decide)
    rw [hval, List.mem_singleton] at hmem
    obtain ⟨rfl, -⟩ := Prod.mk.inj hmem
    rw [hk1] at hk
    cases hk

/-- C3 as stated fails. Decoding the object with the single member "00": ""
succeeds and leaves, beside 0x00 -> (empty), an entry under the two bytes "00",
which are not the hex decoding of a key string of the object. Decoding the object
with the members "aa": "" and "AA": "0000", whose key strings both decode to
0xAA, succeeds and leaves one value for 0xAA: the empty one when "AA" is visited
first, 0x00 0x00 when "aa" is; the other pair is not in the store. -/
theorem C3_counterexample :
    ((NewSimpleMap.UnmarshalJSON .listed (objectText [("00", "")])).1 = none ∧
      entriesOf (jsonUnmarshalMap stringElem (objectText [("00", "")]) none).1
        = [(ascii "00", [])] ∧
      hexDecodeString (ascii "00") = .ok [0x00] ∧
      (ascii "00", []) ∈
        entriesOf (NewSimpleMap.UnmarshalJSON .listed (objectText [("00", "")])).2.m) ∧
    ((NewSimpleMap.UnmarshalJSON .listed (objectText [("aa", ""), ("AA", "0000")])).1 = none ∧
      (NewSimpleMap.UnmarshalJSON .reversed (objectText [("aa", ""), ("AA", "0000")])).1 = none ∧
      entriesOf (jsonUnmarshalMap stringElem (objectText [("aa", ""), ("AA", "0000")]) none).1
        = [(ascii "AA", ascii "0000"), (ascii "aa", [])] ∧
      hexDecodeString (ascii "aa") = .ok [0xAA] ∧
      hexDecodeString (ascii "AA") = .ok [0xAA] ∧
      hexDecodeString (ascii "0000") = .ok [0x00, 0x00] ∧
      ((NewSimpleMap.UnmarshalJSON .listed
          (objectText [("aa", ""), ("AA", "0000")])).2.Get [0xAA]).1 = ([], none) ∧
      ((NewSimpleMap.UnmarshalJSON .reversed
          (objectText [("aa", ""), ("AA", "0000")])).2.Get [0xAA]).1 = ([0x00, 0x00], none)) := by
  decide

/-! ## Text that the parser rejects -/

theorem storeMembers_error_of_mem (elem : JSONValue → Bytes × Option Error)
    (l : List (Bytes × JSONValue)) :
    ∀ (acc : GoMap × Option Error) (x : Bytes × JSONValue), x ∈ l → (elem x.2).2 ≠ none →
      (storeMembers elem l acc).2 ≠ none := by
  induction l with
  | nil => intro acc x hx; simp at hx
  | cons y rest ih =>
    intro acc x hx hne
    rcases y with ⟨name, value⟩
    rcases acc with ⟨m, saved⟩
    simp only [storeMembers]
    rcases List.mem_cons.mp hx with h1 | h1
    · subst h1
      cases saved with
      | some e => rw [storeMembers_saved]; simp
      | none =>
        cases hv : (elem value).2 with
        | none => exact absurd hv hne
        | some e => rw [storeMembers_saved]; simp
    · exact ih _ x h1 hne

/-- C12: Malformed outer text. The parser (`json.Unmarshal` into a
`map[string]string`) rejects a text exactly when it is not well-formed JSON, or
is a string, number, boolean or array, or is an object with a member value that
is neither a string nor `null`; and whenever the parser rejects the text with an
error `e`, `UnmarshalJSON` returns exactly `e` and the store after the call is
the store before the call. -/
theorem C12_malformed_outer_text (ord : RangeOrder) (sm : SimpleMap) (raw : Raw) :
    ((jsonUnmarshalMap stringElem raw none).2 ≠ none ↔
      raw = .invalid ∨ raw = .valid .other ∨
      ∃ members, raw = .valid (.object members) ∧
        ∃ x ∈ members, ∃ b fits, x.2 = JSONValue.other b fits) ∧
    (∀ e, (jsonUnmarshalMap stringElem raw none).2 = some e →
      sm.UnmarshalJSON ord raw = (some e, sm)) := by
  constructor
  · rcases raw with _ | (members | _ | _)
    · simp [jsonUnmarshalMap]
    · simp only [jsonUnmarshalMap, reduceCtorEq, false_or, Raw.valid.injEq, JSONDoc.object.injEq,
        exists_eq_left']
      constructor
      · intro h
        cases he : (storeMembers stringElem members (Option.getD none GoMap.empty, none)).2 with
        | none => exact absurd he h
        | some e =>
          obtain ⟨x, hx, hx2⟩ := storeMembers_error stringElem members _ e he
          refine ⟨x, hx, ?_⟩
          rcases x with ⟨name, value⟩
          cases value with
          | string s => simp [stringElem] at hx2
          | null => simp [stringElem] at hx2
          | other b fits => exact ⟨b, fits, rfl⟩
      · rintro ⟨x, hx, b, fits, hb⟩
        refine storeMembers_error_of_mem stringElem members _ x hx ?_
        rw [hb]
        simp [stringElem]
    · simp [jsonUnmarshalMap]
    · simp [jsonUnmarshalMap]
  · intro e h
    cases h1 : jsonUnmarshalMap stringElem raw none with
    | mk val err =>
      rw [h1] at h
      simp only at h
      subst h
      simp [SimpleMap.UnmarshalJSON, h1]

/-- Witness of C12: the store {0x01 -> 0x02} given a text that is not JSON, and
given an object whose member value is a number. -/
theorem C12_malformed_outer_text_witness :
    (⟨some (.ofList [([1], [2])])⟩ : SimpleMap).UnmarshalJSON .listed .invalid
      = (some .SyntaxError, ⟨some (.ofList [([1], [2])])⟩) ∧
    (⟨some (.ofList [([1], [2])])⟩ : SimpleMap).UnmarshalJSON .listed
        (.valid (.object [(ascii "00", .other [] false)]))
      = (some .UnmarshalTypeError, ⟨some (.ofList [([1], [2])])⟩) :=
  ⟨(C12_malformed_outer_text .listed ⟨some (.ofList [([1], [2])])⟩ .invalid).2
      .SyntaxError (by decide),
   (C12_malformed_outer_text .listed ⟨some (.ofList [([1], [2])])⟩
      (.valid (.object [(ascii "00", .other [] false)]))).2 .UnmarshalTypeError (by decide)⟩

/-! ## The empty store -/

theorem visit_nil (ord : RangeOrder) : ord.visit [] = [] :=
  List.Perm.eq_nil (ord.perm [])

/-- C14: Empty-store scenario. `MarshalJSON` on a store fresh from
`NewSimpleMap()` returns the text of the empty object with no error, and
`UnmarshalJSON` of the empty object succeeds on every store, whatever it held,
and leaves it with no entries: every following `Get` fails with an
`InvalidKeyError` carrying the key. -/
theorem C14_empty_store (ord : RangeOrder) (sm : SimpleMap) :
    (NewSimpleMap.MarshalJSON ord).1 = (.valid (.object []), none) ∧
    (sm.UnmarshalJSON ord (.valid (.object []))).1 = none ∧
    entriesOf (sm.UnmarshalJSON ord (.valid (.object []))).2.m = [] ∧
    (∀ k, ((sm.UnmarshalJSON ord (.valid (.object []))).2.Get k).1
      = ([], some (.InvalidKeyError k))) := by
  have hm : NewSimpleMap.marshalVal ord = GoMap.empty := by
    simp [SimpleMap.marshalVal, NewSimpleMap, entriesOf, GoMap.empty, visit_nil]
  have hu : sm.UnmarshalJSON ord (.valid (.object [])) = (none, ⟨some GoMap.empty⟩) := by
    simp [SimpleMap.UnmarshalJSON, jsonUnmarshalMap, storeMembers, entriesOf, GoMap.empty,
      visit_nil, SimpleMap.decodeLoop]
  refine ⟨?_, by rw [hu], by rw [hu]; rfl, fun k => by rw [hu]; rfl⟩
  rw [SimpleMap.MarshalJSON, hm]
  rfl

/-! ## Construction from a mapping -/

/-- C15: Construction from a mapping. For every mapping `m` handed to
`SimpleMapFactory`, nil included, `Get(k)` returns the value `v` with no error
exactly when `m` holds the entry whose key has the bytes of `k`, with value `v`,
and fails with an `InvalidKeyError` carrying `k` when `m` has no such key; two
different byte sequences for which `Get` succeeds reach two different entries of
`m`, each under its own bytes. -/
theorem C15_factory_get (m : Option GoMap) (k : Bytes) :
    (∀ v, ((SimpleMapFactory m).Get k).1 = (v, none) ↔ (k, v) ∈ entriesOf m) ∧
    (((SimpleMapFactory m).Get k).1 = ([], some (.InvalidKeyError k)) ↔
      k ∉ (entriesOf m).map Prod.fst) ∧
    (∀ k1 k2 v1 v2, ((SimpleMapFactory m).Get k1).1 = (v1, none) →
      ((SimpleMapFactory m).Get k2).1 = (v2, none) → k1 ≠ k2 →
      (k1, v1) ∈ entriesOf m ∧ (k2, v2) ∈ entriesOf m ∧ (k1, v1) ≠ (k2, v2)) := by
  have nd := nodup_keys_entriesOf m
  have hget : ∀ k2 v, ((SimpleMapFactory m).Get k2).1 = (v, none) ↔ (k2, v) ∈ entriesOf m := by
    intro k2 v
    constructor
    · intro h
      cases hi : index m k2 with
      | none => simp [SimpleMap.Get, SimpleMapFactory, hi] at h
      | some w =>
        simp only [SimpleMap.Get, SimpleMapFactory, hi, Prod.mk.injEq, and_true] at h
        exact h ▸ mem_of_lookupEntry hi
    · intro h
      have hi : index m k2 = some v := lookupEntry_of_mem nd h
      simp [SimpleMap.Get, SimpleMapFactory, hi]
  refine ⟨hget k, ?_, ?_⟩
  · constructor
    · intro h
      cases hi : index m k with
      | none => exact lookupEntry_eq_none.mp hi
      | some w => simp [SimpleMap.Get, SimpleMapFactory, hi] at h
    · intro h
      have hi : index m k = none := lookupEntry_eq_none.mpr h
      simp [SimpleMap.Get, SimpleMapFactory, hi]
  · intro k1 k2 v1 v2 h1 h2 hne
    exact ⟨(hget k1 v1).mp h1, (hget k2 v2).mp h2, fun h3 => hne (Prod.mk.inj h3).1⟩

/-- Witness of C15: the mapping {0x01 -> 0xAB, 0x02 -> 0xAB}; `Get` of 0x01 and
`Get` of 0x02 return the same value through two different entries. -/
theorem C15_factory_get_witness :
    (([1], [0xAB]) : Bytes × Bytes) ∈ entriesOf (some (.ofList [([1], [0xAB]), ([2], [0xAB])])) ∧
    (([2], [0xAB]) : Bytes × Bytes) ∈ entriesOf (some (.ofList [([1], [0xAB]), ([2], [0xAB])])) ∧
    (([1], [0xAB]) : Bytes × Bytes) ≠ ([2], [0xAB]) :=
  (C15_factory_get (some (.ofList [([1], [0xAB]), ([2], [0xAB])])) [1]).2.2
    [1] [2] [0xAB] [0xAB] (by decide) (by decide) (by decide)

/-! ## The hexadecimal step of the encoder and of the decoder -/

theorem hextable_digits : ∀ n : Fin 16,
    (48 ≤ (hextable.getD n.val 0).val ∧ (hextable.getD n.val 0).val ≤ 57) ∨
    (97 ≤ (hextable.getD n.val 0).val ∧ (hextable.getD n.val 0).val ≤ 102) := by
  decide

theorem hexEncodeByte_digits (v : Byte) : ∀ c ∈ hexEncodeByte v,
    (48 ≤ c.val ∧ c.val ≤ 57) ∨ (97 ≤ c.val ∧ c.val ≤ 102) := by
  intro c hc
  simp only [hexEncodeByte, List.mem_cons, List.mem_singleton, List.not_mem_nil, or_false] at hc
  rcases hc with rfl | rfl
  · exact hextable_digits ⟨v.val / 16, by omega⟩
  · exact hextable_digits ⟨v.val % 16, by omega⟩

/-- C16: Hex encoding is reversible and format-safe. For every byte sequence
`b`, the string of `hex.EncodeToString` has length `2 * len(b)`, consists only of
the characters `0-9` and `a-f`, and `hex.DecodeString` of it succeeds and returns
exactly `b`. -/
theorem C16_hex_reversible (b : Bytes) :
    (hexEncodeToString b).length = 2 * b.length ∧
    (∀ c ∈ hexEncodeToString b, (48 ≤ c.val ∧ c.val ≤ 57) ∨ (97 ≤ c.val ∧ c.val ≤ 102)) ∧
    hexDecodeString (hexEncodeToString b) = .ok b := by
  refine ⟨?_, ?_, hexDecodeString_hexEncodeToString b⟩
  · induction b with
    | nil => rfl
    | cons v rest ih =>
      simp only [hexEncodeToString, hexEncodeByte, List.cons_append, List.nil_append,
        List.length_cons, ih]
      omega
  · induction b with
    | nil => intro c hc; simp [hexEncodeToString] at hc
    | cons v rest ih =>
      intro c hc
      rw [hexEncodeToString, List.mem_append] at hc
      rcases hc with hc | hc
      · exact hexEncodeByte_digits v c hc
      · exact ih c hc

/-! ## Locality of Set and Delete -/

theorem index_deleteKey_ne (m : Option GoMap) {k k2 : Bytes} (h : k2 ≠ k) :
    index (deleteKey m k) k2 = index m k2 := by
  cases m with
  | none => rfl
  | some g => simp [index, entriesOf, deleteKey, GoMap.delete, lookupEntry_eraseKey_ne h]

/-- C17: Locality of mutation. For two keys `k` and `k2` of different byte
content, `Get(k2)` gives the same result, value or `InvalidKeyError`, before
`Set(k, v)` and after it has returned (it returns on every store whose internal
map is allocated), and before and after `Delete(k)`, whether that `Delete`
succeeds or fails. -/
theorem C17_locality (sm : SimpleMap) (k k2 v : Bytes) (h : k ≠ k2) :
    (sm.m ≠ none → ∃ sm', sm.Set k v = .ret (none, sm')) ∧
    (∀ e sm', sm.Set k v = .ret (e, sm') → (sm'.Get k2).1 = (sm.Get k2).1) ∧
    ((sm.Delete k).2.Get k2).1 = (sm.Get k2).1 := by
  have h2 : k2 ≠ k := fun h3 => h h3.symm
  refine ⟨?_, ?_, ?_⟩
  · rcases sm with ⟨_ | g⟩
    · exact fun h0 => absurd rfl h0
    · exact fun _ => ⟨_, rfl⟩
  · intro e sm' hs
    rcases sm with ⟨_ | g⟩
    · simp [SimpleMap.Set, assign] at hs
    · simp only [SimpleMap.Set, assign, Outcome.ret.injEq, Prod.mk.injEq] at hs
      obtain ⟨-, rfl⟩ := hs
      simp only [SimpleMap.Get, index_set_ne g h2 v]
      cases index (some g) k2 <;> rfl
  · unfold SimpleMap.Delete
    cases hi : index sm.m k with
    | none => rfl
    | some w =>
      simp only [SimpleMap.Get, index_deleteKey_ne sm.m h2]
      cases index sm.m k2 <;> rfl

/-- Witness of C17: the store {0x01 -> 0xAB, 0x02 -> 0xCD}; `Get` of 0x02 is the
same after `Delete` of 0x01 and after `Delete` of the absent 0x03. -/
theorem C17_locality_witness :
    ((((⟨some (.ofList [([1], [0xAB]), ([2], [0xCD])])⟩ : SimpleMap).Delete [1]).2).Get [2]).1
      = ((⟨some (.ofList [([1], [0xAB]), ([2], [0xCD])])⟩ : SimpleMap).Get [2]).1 ∧
    ((((⟨some (.ofList [([1], [0xAB]), ([2], [0xCD])])⟩ : SimpleMap).Delete [3]).2).Get [2]).1
      = ((⟨some (.ofList [([1], [0xAB]), ([2], [0xCD])])⟩ : SimpleMap).Get [2]).1 :=
  ⟨(C17_locality ⟨some (.ofList [([1], [0xAB]), ([2], [0xCD])])⟩ [1] [2] [] (by decide)).2.2,
   (C17_locality ⟨some (.ofList [([1], [0xAB]), ([2], [0xCD])])⟩ [3] [2] [] (by decide)).2.2⟩

/-! ## Encoded objects of two stores -/

theorem mem_marshalVal (ord : RangeOrder) (sm : SimpleMap) (ks vs : Bytes) :
    (ks, vs) ∈ (sm.marshalVal ord).entries ↔
      ∃ k v, (k, v) ∈ entriesOf sm.m ∧ ks = hexEncodeToString k ∧ vs = hexEncodeToString v := by
  have hp := ord.perm (entriesOf sm.m)
  rw [marshalVal_entries, List.mem_reverse, List.mem_map]
  constructor
  · rintro ⟨e, he, h⟩
    have h1 := Prod.mk.inj h
    exact ⟨e.1, e.2, hp.subset he, h1.1.symm, h1.2.symm⟩
  · rintro ⟨k, v, he, rfl, rfl⟩
    exact ⟨(k, v), hp.symm.subset he, rfl⟩

/-- C18: Encoding never merges entries. If the hex-encoded objects that
`MarshalJSON` builds for two stores hold the same pairs (in particular if the
two texts returned are equal), the two stores hold the same set of (key, value)
pairs; the encoded object of a store has exactly as many entries as the store;
and distinct keys encode to distinct key strings. -/
theorem C18_encoding_never_merges (ord1 ord2 : RangeOrder) (s1 s2 : SimpleMap) :
    ((∀ ks vs, (ks, vs) ∈ (s1.marshalVal ord1).entries ↔ (ks, vs) ∈ (s2.marshalVal ord2).entries) →
      ∀ k v, (k, v) ∈ entriesOf s1.m ↔ (k, v) ∈ entriesOf s2.m) ∧
    ((s1.MarshalJSON ord1).1 = (s2.MarshalJSON ord2).1 →
      ∀ k v, (k, v) ∈ entriesOf s1.m ↔ (k, v) ∈ entriesOf s2.m) ∧
    (s1.marshalVal ord1).entries.length = (entriesOf s1.m).length ∧
    (∀ k1 k2 : Bytes, k1 ≠ k2 → hexEncodeToString k1 ≠ hexEncodeToString k2) := by
  have key : ∀ (o1 o2 : RangeOrder) (a b : SimpleMap),
      (∀ ks vs, (ks, vs) ∈ (a.marshalVal o1).entries → (ks, vs) ∈ (b.marshalVal o2).entries) →
      ∀ k v, (k, v) ∈ entriesOf a.m → (k, v) ∈ entriesOf b.m := by
    intro o1 o2 a b h k v hkv
    have h1 : (hexEncodeToString k, hexEncodeToString v) ∈ (a.marshalVal o1).entries :=
      (mem_marshalVal o1 a _ _).mpr ⟨k, v, hkv, rfl, rfl⟩
    obtain ⟨k2, v2, h2, hk, hv⟩ := (mem_marshalVal o2 b _ _).mp (h _ _ h1)
    rw [hexEncodeToString_injective hk, hexEncodeToString_injective hv]
    exact h2
  have first : (∀ ks vs,
      (ks, vs) ∈ (s1.marshalVal ord1).entries ↔ (ks, vs) ∈ (s2.marshalVal ord2).entries) →
      ∀ k v, (k, v) ∈ entriesOf s1.m ↔ (k, v) ∈ entriesOf s2.m :=
    fun h k v => ⟨key ord1 ord2 s1 s2 (fun ks vs => (h ks vs).mp) k v,
      key ord2 ord1 s2 s1 (fun ks vs => (h ks vs).mpr) k v⟩
  refine ⟨first, fun h => first ?_, ?_, fun k1 k2 hne h => hne (hexEncodeToString_injective h)⟩
  · simp only [SimpleMap.MarshalJSON, jsonMarshal, Prod.mk.injEq, and_true, Raw.valid.injEq,
      JSONDoc.object.injEq] at h
    have hinj : Function.Injective (fun e : Bytes × Bytes => (e.1, JSONValue.string e.2)) := by
      intro a b hab
      simp only [Prod.mk.injEq, JSONValue.string.injEq] at hab
      exact Prod.ext hab.1 hab.2
    have h1 := List.map_injective_iff.mpr hinj h
    have hperm : (s1.marshalVal ord1).entries.Perm (s2.marshalVal ord2).entries :=
      ((sortByKey_perm _).symm.trans (h1 ▸ List.Perm.refl _)).trans (sortByKey_perm _)
    exact fun ks vs => hperm.mem_iff
  · rw [marshalVal_entries, List.length_reverse, List.length_map, (ord1.perm _).length_eq]

/-- Witness of C18: two stores holding 0x01 -> 0xAB and 0x02 -> 0xCD, filled in
opposite orders and encoded in opposite orders, return the same text and hold
the same pairs. -/
theorem C18_encoding_never_merges_witness :
    ((([2], [0xCD]) : Bytes × Bytes) ∈
        entriesOf (SimpleMap.m ⟨some (.ofList [([1], [0xAB]), ([2], [0xCD])])⟩) ↔
      (([2], [0xCD]) : Bytes × Bytes) ∈
        entriesOf (SimpleMap.m ⟨some (.ofList [([2], [0xCD]), ([1], [0xAB])])⟩)) :=
  (C18_encoding_never_merges .listed .reversed ⟨some (.ofList [([1], [0xAB]), ([2], [0xCD])])⟩
    ⟨some (.ofList [([2], [0xCD]), ([1], [0xAB])])⟩).2.1 (by decide) [2] [0xCD]

/-! ## The final generic unmarshal -/

theorem storeMembers_append (elem : JSONValue → Bytes × Option Error)
    (l1 l2 : List (Bytes × JSONValue)) :
    ∀ acc, storeMembers elem (l1 ++ l2) acc = storeMembers elem l2 (storeMembers elem l1 acc) := by
  induction l1 with
  | nil => intro acc; rfl
  | cons x rest ih =>
    intro acc
    rcases x with ⟨name, value⟩
    rcases acc with ⟨m, saved⟩
    simp only [List.cons_append, storeMembers]
    exact ih _

theorem exists_last_member {name : Bytes} (l : List (Bytes × JSONValue))
    (h : name ∈ l.map Prod.fst) :
    ∃ l1 value l2, l = l1 ++ (name, value) :: l2 ∧ name ∉ l2.map Prod.fst := by
  induction l with
  | nil => simp at h
  | cons x rest ih =>
    by_cases hr : name ∈ rest.map Prod.fst
    · obtain ⟨l1, value, l2, h1, h2⟩ := ih hr
      exact ⟨x :: l1, value, l2, by rw [h1]; rfl, h2⟩
    · rw [List.map_cons, List.mem_cons] at h
      rcases h with h | h
      · exact ⟨[], x.2, rest, by rw [h]; rfl, hr⟩
      · exact absurd h hr

theorem storeMembers_last (elem : JSONValue → Bytes × Option Error)
    (l1 l2 : List (Bytes × JSONValue)) (name : Bytes) (value : JSONValue)
    (acc : GoMap × Option Error) (h : name ∉ l2.map Prod.fst) :
    lookupEntry name (storeMembers elem (l1 ++ (name, value) :: l2) acc).1.entries
      = some (elem value).1 := by
  rw [storeMembers_append]
  rcases storeMembers elem l1 acc with ⟨m, saved⟩
  simp only [storeMembers]
  rw [storeMembers_lookup_ne elem l2 _ name h, lookupEntry_set, if_pos rfl]

theorem storeMembers_keys (elem : JSONValue → Bytes × Option Error)
    (l : List (Bytes × JSONValue)) :
    ∀ (acc : GoMap × Option Error) (k : Bytes),
      lookupEntry k (storeMembers elem l acc).1.entries ≠ none →
      k ∈ l.map Prod.fst ∨ lookupEntry k acc.1.entries ≠ none := by
  intro acc k h
  by_cases hk : k ∈ l.map Prod.fst
  · exact Or.inl hk
  · rw [storeMembers_lookup_ne elem l acc k hk] at h
    exact Or.inr h

theorem base64Decode_nil : base64Decode [] = .ok [] := rfl

/-- C19: Effect of the final generic unmarshal. When `UnmarshalJSON` succeeds,
then for every entry `(ks, vs)` of the parsed string->string object the
resulting store has an entry whose key is the bytes of the text `ks` itself and
whose value is the standard-base64 decoding of `vs`, which `Get` returns; and
`ks` and `vs` are valid hexadecimal and `vs` is valid padded standard base64. -/
theorem C19_final_unmarshal_effect (ord : RangeOrder) (sm : SimpleMap) (raw : Raw)
    (h : (sm.UnmarshalJSON ord raw).1 = none) :
    ∀ ks vs, (ks, vs) ∈ entriesOf (jsonUnmarshalMap stringElem raw none).1 →
      (∃ k, hexDecodeString ks = .ok k) ∧ (∃ v, hexDecodeString vs = .ok v) ∧
      ∃ b, base64Decode vs = .ok b ∧
        (ks, b) ∈ entriesOf (sm.UnmarshalJSON ord raw).2.m ∧
        ((sm.UnmarshalJSON ord raw).2.Get ks).1 = (b, none) := by
  intro ks vs hmem
  rcases raw with _ | (members | _ | _)
  · simp [jsonUnmarshalMap, entriesOf] at hmem
  · cases h1 : jsonUnmarshalMap stringElem (.valid (.object members)) none with
    | mk val err1 =>
    rw [h1] at hmem
    cases err1 with
    | some e1 => simp [SimpleMap.UnmarshalJSON, h1] at h
    | none =>
      cases h2 : SimpleMap.decodeLoop val (ord.visit (entriesOf val)) GoMap.empty with
      | mk m err2 =>
      cases err2 with
      | some e2 => simp [SimpleMap.UnmarshalJSON, h1, h2] at h
      | none =>
        have hu : sm.UnmarshalJSON ord (.valid (.object members))
            = ((storeMembers bytesElem members (m, none)).2,
                ⟨some (storeMembers bytesElem members (m, none)).1⟩) := by
          simp only [SimpleMap.UnmarshalJSON, h1, h2]
          simp [jsonUnmarshalMap]
        rw [hu] at h
        simp only at h
        have hval : val = some (storeMembers stringElem members (GoMap.empty, none)).1 := by
          simp only [jsonUnmarshalMap, Prod.mk.injEq] at h1
          exact h1.1.symm
        have herr1 : (storeMembers stringElem members (GoMap.empty, none)).2 = none := by
          simp only [jsonUnmarshalMap, Prod.mk.injEq] at h1
          exact h1.2
        have hnd := nodup_keys_entriesOf val
        -- the loop has decoded the key and the value of this entry
        obtain ⟨hl, -⟩ := decodeLoop_ok val _ _ m h2
        have hvis : (ks, vs) ∈ ord.visit (entriesOf val) := (ord.perm _).symm.subset hmem
        have hdec := decodeLoop_entry_ok val _ _ m h2 (ks, vs) hvis
        rw [show index val ks = some vs from lookupEntry_of_mem hnd hmem] at hdec
        -- the member that comes last under the name `ks`
        have hlk : lookupEntry ks (entriesOf val) = some vs := lookupEntry_of_mem hnd hmem
        have hname : ks ∈ members.map Prod.fst := by
          rw [hval] at hlk
          rcases storeMembers_keys stringElem members (GoMap.empty, none) ks
            (by simp only [entriesOf] at hlk; rw [hlk]; simp) with h3 | h3
          · exact h3
          · simp [GoMap.empty, lookupEntry] at h3
        obtain ⟨l1, value, l2, hsplit, hlast⟩ := exists_last_member members hname
        have hvs : (stringElem value).1 = vs := by
          have h4 := storeMembers_last stringElem l1 l2 ks value (GoMap.empty, none) hlast
          rw [← hsplit] at h4
          rw [hval] at hlk
          simp only [entriesOf] at hlk
          rw [hlk] at h4
          exact (Option.some.inj h4).symm
        have hin : (ks, value) ∈ members := by rw [hsplit]; simp
        have hs := storeMembers_no_error stringElem members _ herr1 (ks, value) hin
        have hb := storeMembers_no_error bytesElem members _ h (ks, value) hin
        have hfin : lookupEntry ks (storeMembers bytesElem members (m, none)).1.entries
            = some (bytesElem value).1 := by
          have h5 := storeMembers_last bytesElem l1 l2 ks value (m, none) hlast
          rw [← hsplit] at h5
          exact h5
        have hget : ∀ b, (bytesElem value).1 = b →
            (ks, b) ∈ entriesOf (sm.UnmarshalJSON ord (.valid (.object members))).2.m ∧
            ((sm.UnmarshalJSON ord (.valid (.object members))).2.Get ks).1 = (b, none) := by
          intro b hbv
          rw [hu, ← hbv]
          refine ⟨mem_of_lookupEntry hfin, ?_⟩
          have h6 : index (some (storeMembers bytesElem members (m, none)).1) ks
              = some (bytesElem value).1 := hfin
          simp [SimpleMap.Get, h6]
        refine ⟨hdec.1, hdec.2, ?_⟩
        cases value with
        | string s0 =>
          simp only [stringElem] at hvs
          subst hvs
          cases hb64 : base64Decode s0 with
          | error e => simp [bytesElem, hb64] at hb
          | ok b => exact ⟨b, rfl, hget b (by simp [bytesElem, hb64])⟩
        | null =>
          simp only [stringElem] at hvs
          subst hvs
          exact ⟨[], base64Decode_nil, hget [] rfl⟩
        | other b fits => simp [stringElem] at hs
  · simp [jsonUnmarshalMap, entriesOf] at hmem
  · simp [jsonUnmarshalMap, entriesOf] at hmem

/-- Witness of C19: a fresh store decoding the object with the single member
"01": "abcd". -/
theorem C19_final_unmarshal_effect_witness :
    (∃ k, hexDecodeString (ascii "01") = .ok k) ∧ (∃ v, hexDecodeString (ascii "abcd") = .ok v) ∧
    ∃ b, base64Decode (ascii "abcd") = .ok b ∧
      (ascii "01", b) ∈
        entriesOf (NewSimpleMap.UnmarshalJSON .listed (objectText [("01", "abcd")])).2.m ∧
      ((NewSimpleMap.UnmarshalJSON .listed (objectText [("01", "abcd")])).2.Get (ascii "01")).1
        = (b, none) :=
  C19_final_unmarshal_effect .listed NewSimpleMap (objectText [("01", "abcd")]) (by decide)
    (ascii "01") (ascii "abcd") (by decide)

/-! ## Strings that are not hexadecimal -/

theorem fromHexChar_eq_none_iff (c : Byte) :
    fromHexChar c = none ↔
      ¬ ((48 ≤ c.val ∧ c.val ≤ 57) ∨ (97 ≤ c.val ∧ c.val ≤ 102) ∨ (65 ≤ c.val ∧ c.val ≤ 70)) := by
  unfold fromHexChar
  split
  · simp_all
  · split
    · simp_all
    · split <;> simp_all

theorem hexDecodeString_ok_iff (s : Bytes) :
    (∃ b, hexDecodeString s = .ok b) ↔ s.length % 2 = 0 ∧ ∀ c ∈ s, fromHexChar c ≠ none := by
  induction s using hexDecodeString.induct with
  | case1 => simp [hexDecodeString]
  | case2 p hp => simp [hexDecodeString, hp]
  | case3 p x hp => simp [hexDecodeString, hp]
  | case4 p q rest hp => simp [hexDecodeString, hp]
  | case5 p q rest a ha hq => simp [hexDecodeString, ha, hq]
  | case6 p q rest a ha b hb e he ih =>
    have h1 : ¬ ∃ b, hexDecodeString rest = .ok b := by simp [he]
    rw [ih] at h1
    simp only [hexDecodeString, ha, hb, he, reduceCtorEq, exists_false, List.length_cons,
      List.mem_cons, false_iff]
    rintro ⟨h2, h3⟩
    exact h1 ⟨by omega, fun c hc => h3 c (Or.inr (Or.inr hc))⟩
  | case7 p q rest a ha b hb bs hbs ih =>
    have h1 : ∃ b, hexDecodeString rest = .ok b := ⟨bs, hbs⟩
    rw [ih] at h1
    simp only [hexDecodeString, ha, hb, hbs, Except.ok.injEq, exists_eq', List.length_cons,
      List.mem_cons, true_iff]
    refine ⟨by omega, fun c hc => ?_⟩
    rcases hc with rfl | rfl | hc
    · simp [ha]
    · simp [hb]
    · exact h1.2 c hc

theorem mem_parsed_of_last_member (l1 l2 : List (Bytes × JSONValue)) (name : Bytes)
    (value : JSONValue) (h : name ∉ l2.map Prod.fst) :
    (name, (stringElem value).1) ∈
      entriesOf (jsonUnmarshalMap stringElem
        (.valid (.object (l1 ++ (name, value) :: l2))) none).1 := by
  simp only [jsonUnmarshalMap, entriesOf]
  exact mem_of_lookupEntry (storeMembers_last stringElem l1 l2 name value _ h)

/-- C11, as amended: `hex.DecodeString` rejects a string exactly when its length
is odd or one of its characters is outside `0-9a-fA-F`; and for the text of any
object, if a key string or a value string of the parsed string->string mapping
is rejected by it, `UnmarshalJSON` returns an error, which is `ErrLength` or
`InvalidByteError` when the text parses as an object of strings. The parsed
mapping holds, for every name, the member that comes last under that name: every
member when no name is repeated in the text. -/
theorem C11_non_hex_rejected (ord : RangeOrder) (sm : SimpleMap)
    (members : List (Bytes × JSONValue)) :
    (∀ s, (∀ b, hexDecodeString s ≠ .ok b) ↔
      (s.length % 2 = 1 ∨ ∃ c ∈ s,
        ¬ ((48 ≤ c.val ∧ c.val ≤ 57) ∨ (97 ≤ c.val ∧ c.val ≤ 102) ∨
          (65 ≤ c.val ∧ c.val ≤ 70)))) ∧
    (∀ ks vs,
      (ks, vs) ∈ entriesOf (jsonUnmarshalMap stringElem (.valid (.object members)) none).1 →
      ((∀ b, hexDecodeString ks ≠ .ok b) ∨ (∀ b, hexDecodeString vs ≠ .ok b)) →
      ∃ e, (sm.UnmarshalJSON ord (.valid (.object members))).1 = some e ∧
        ((jsonUnmarshalMap stringElem (.valid (.object members)) none).2 = none →
          e = .ErrLength ∨ ∃ b, e = .InvalidByteError b)) ∧
    (∀ l1 l2 name value, members = l1 ++ (name, value) :: l2 → name ∉ l2.map Prod.fst →
      (name, (stringElem value).1) ∈
        entriesOf (jsonUnmarshalMap stringElem (.valid (.object members)) none).1) ∧
    ((members.map Prod.fst).Nodup → ∀ name value, (name, value) ∈ members →
      (name, (stringElem value).1) ∈
        entriesOf (jsonUnmarshalMap stringElem (.valid (.object members)) none).1) := by
  refine ⟨fun s => ?_, fun ks vs hmem hbad => ?_, fun l1 l2 name value hs hl => ?_,
    fun hnd name value hin => ?_⟩
  · have h1 := hexDecodeString_ok_iff s
    constructor
    · intro h
      have h2 : ¬ (s.length % 2 = 0 ∧ ∀ c ∈ s, fromHexChar c ≠ none) :=
        fun h3 => by obtain ⟨b, hb⟩ := h1.mpr h3; exact h b hb
      by_cases hlen : s.length % 2 = 0
      · right
        by_contra h4
        apply h2
        refine ⟨hlen, fun c hc hnone => h4 ⟨c, hc, (fromHexChar_eq_none_iff c).mp hnone⟩⟩
      · left; omega
    · rintro h b hb
      obtain ⟨hlen, hall⟩ := h1.mp ⟨b, hb⟩
      rcases h with h | ⟨c, hc, hout⟩
      · omega
      · exact hall c hc ((fromHexChar_eq_none_iff c).mpr hout)
  · cases h1 : jsonUnmarshalMap stringElem (.valid (.object members)) none with
    | mk val err1 =>
    rw [h1] at hmem
    cases err1 with
    | some e1 =>
      exact ⟨e1, by simp [SimpleMap.UnmarshalJSON, h1], fun h => by simp at h⟩
    | none =>
      cases h2 : SimpleMap.decodeLoop val (ord.visit (entriesOf val)) GoMap.empty with
      | mk m err2 =>
      cases err2 with
      | some e2 =>
        refine ⟨e2, by simp [SimpleMap.UnmarshalJSON, h1, h2], fun _ => ?_⟩
        exact decodeLoop_error val _ _ _ (congrArg Prod.snd h2)
      | none =>
        exfalso
        have hdec := decodeLoop_entry_ok val _ _ m h2 (ks, vs)
          ((ord.perm _).symm.subset hmem)
        rw [show index val ks = some vs from
          lookupEntry_of_mem (nodup_keys_entriesOf val) hmem] at hdec
        obtain ⟨⟨k, hk⟩, ⟨v, hv⟩⟩ := hdec
        rcases hbad with hb | hb
        · exact hb k hk
        · exact hb v hv
  · rw [hs]
    exact mem_parsed_of_last_member l1 l2 name value hl
  · obtain ⟨l1, l2, hs⟩ := List.append_of_mem hin
    rw [hs]
    refine mem_parsed_of_last_member l1 l2 name value ?_
    rw [hs, List.map_append, List.map_cons] at hnd
    exact (List.nodup_cons.mp (List.nodup_append.mp hnd).2.1).1

/-- Witness of C11 as amended: the object with the members "00": "0g" and
"01": "abcd", no name repeated; the value string "0g" is not hexadecimal. -/
theorem C11_non_hex_rejected_witness :
    ∃ e, (NewSimpleMap.UnmarshalJSON .listed (objectText [("00", "0g"), ("01", "abcd")])).1
        = some e ∧
      ((jsonUnmarshalMap stringElem (objectText [("00", "0g"), ("01", "abcd")]) none).2 = none →
        e = .ErrLength ∨ ∃ b, e = .InvalidByteError b) :=
  (C11_non_hex_rejected .listed NewSimpleMap
      [(ascii "00", .string (ascii "0g")), (ascii "01", .string (ascii "abcd"))]).2.1
    (ascii "00") (ascii "0g")
    ((C11_non_hex_rejected .listed NewSimpleMap
      [(ascii "00", .string (ascii "0g")), (ascii "01", .string (ascii "abcd"))]).2.2.2
      (by decide) (ascii "00") (.string (ascii "0g")) (by decide))
    (Or.inr (fun b hb => by
      have h : hexDecodeString (ascii "0g") = .error (.InvalidByteError 103) := by decide
      rw [h] at hb
      cases hb))

/-- C11 as stated fails: the text of the object with the members "00": "zzzz"
and "00": "0000" is well-formed JSON with string values, its value string
"zzzz" is not hexadecimal, and `UnmarshalJSON` succeeds on it: the parsed
mapping keeps the later member only, and the store ends with the entries
0x00 -> 0x00 0x00 and "00" -> (base64 of "0000"). -/
theorem C11_counterexample :
    hexDecodeString (ascii "zzzz") = .error (.InvalidByteError 122) ∧
    (jsonUnmarshalMap stringElem (objectText [("00", "zzzz"), ("00", "0000")]) none)
      = (some (.ofList [(ascii "00", ascii "0000")]), none) ∧
    NewSimpleMap.UnmarshalJSON .listed (objectText [("00", "zzzz"), ("00", "0000")])
      = (none, ⟨some (.ofList [([0x00], [0x00, 0x00]), (ascii "00", [0xD3, 0x4D, 0x34])])⟩) := by
  decide

/-! ## Decoding into two stores -/

theorem decodeLoop_none_of_all (val : Option GoMap) (l : List (Bytes × Bytes)) :
    ∀ (m0 : GoMap),
      (∀ x ∈ l, (∃ k, hexDecodeString x.1 = .ok k) ∧
        ∃ v, hexDecodeString ((index val x.1).getD []) = .ok v) →
      (SimpleMap.decodeLoop val l m0).2 = none := by
  induction l with
  | nil => intro m0 _; rfl
  | cons y rest ih =>
    intro m0 h
    obtain ⟨⟨k, hk⟩, ⟨v, hv⟩⟩ := h y (List.mem_cons_self _ _)
    simp only [SimpleMap.decodeLoop, hk, hv]
    exact ih _ (fun x hx => h x (List.mem_cons_of_mem _ hx))

theorem storeMembers_error_indep (elem : JSONValue → Bytes × Option Error)
    (l : List (Bytes × JSONValue)) :
    ∀ (m1 m2 : GoMap) (saved : Option Error),
      (storeMembers elem l (m1, saved)).2 = (storeMembers elem l (m2, saved)).2 := by
  induction l with
  | nil => intro m1 m2 saved; rfl
  | cons x rest ih =>
    intro m1 m2 saved
    rcases x with ⟨name, value⟩
    simp only [storeMembers]
    exact ih _ _ _

theorem storeMembers_lookup_congr (elem : JSONValue → Bytes × Option Error)
    (l : List (Bytes × JSONValue)) :
    ∀ (m1 m2 : GoMap) (s1 s2 : Option Error),
      (∀ k, lookupEntry k m1.entries = lookupEntry k m2.entries) →
      ∀ k, lookupEntry k (storeMembers elem l (m1, s1)).1.entries
        = lookupEntry k (storeMembers elem l (m2, s2)).1.entries := by
  induction l with
  | nil => intro m1 m2 s1 s2 h k; exact h k
  | cons x rest ih =>
    intro m1 m2 s1 s2 h k
    rcases x with ⟨name, value⟩
    simp only [storeMembers]
    refine ih _ _ _ _ (fun k2 => ?_) k
    rw [lookupEntry_set, lookupEntry_set, h k2]

theorem decodeLoop_lookup_det (val : Option GoMap) (l1 l2 : List (Bytes × Bytes))
    (m1 m2 : GoMap) (hp : l1.Perm l2)
    (hsub : ∀ x ∈ l1, x ∈ entriesOf val)
    (h1 : SimpleMap.decodeLoop val l1 GoMap.empty = (m1, none))
    (h2 : SimpleMap.decodeLoop val l2 GoMap.empty = (m2, none))
    (hinj : ∀ x ∈ entriesOf val, ∀ y ∈ entriesOf val, ∀ k,
      hexDecodeString x.1 = .ok k → hexDecodeString y.1 = .ok k → x = y) :
    ∀ k, lookupEntry k m1.entries = lookupEntry k m2.entries := by
  intro k
  obtain ⟨a1, b1⟩ := decodeLoop_ok val l1 _ m1 h1
  obtain ⟨a2, b2⟩ := decodeLoop_ok val l2 _ m2 h2
  by_cases hex : ∃ x ∈ l1, hexDecodeString x.1 = .ok k
  · obtain ⟨x, hx, hxk⟩ := hex
    obtain ⟨k1, hk1, y1, hy1, v1, hy1k, hy1v, hl1⟩ := a1 x hx
    obtain ⟨k2, hk2, y2, hy2, v2, hy2k, hy2v, hl2⟩ := a2 x (hp.subset hx)
    rw [hxk] at hk1 hk2
    obtain rfl := Except.ok.inj hk1
    obtain rfl := Except.ok.inj hk2
    have e1 : y1 = x := hinj y1 (hsub y1 hy1) x (hsub x hx) k hy1k hxk
    have e2 : y2 = x := hinj y2 (hsub y2 (hp.symm.subset hy2)) x (hsub x hx) k hy2k hxk
    subst e1
    subst e2
    rw [hy1v] at hy2v
    obtain rfl := Except.ok.inj hy2v
    rw [hl1, hl2]
  · have n1 : ∀ x ∈ l1, hexDecodeString x.1 ≠ .ok k := fun x hx hxk => hex ⟨x, hx, hxk⟩
    have n2 : ∀ x ∈ l2, hexDecodeString x.1 ≠ .ok k :=
      fun x hx hxk => hex ⟨x, hp.symm.subset hx, hxk⟩
    rw [b1 k n1, b2 k n2]

/-- C13, as amended: if `UnmarshalJSON(raw)` succeeds on a store, it succeeds on
every store, whatever the two stores held and in whatever order the decode loop
visits the parsed entries. When the loop visits them in the same order in both
calls, both calls return the same store, so that nothing of the prior contents
survives unless the input supplies it. When the orders differ, `Get` still gives
the same answer on both stores for every key, provided no two key strings of the
parsed object hex-decode to the same bytes. -/
theorem C13_decode_replaces (ord1 ord2 : RangeOrder) (s1 s2 : SimpleMap) (raw : Raw)
    (h : (s1.UnmarshalJSON ord1 raw).1 = none) :
    (s2.UnmarshalJSON ord2 raw).1 = none ∧
    s2.UnmarshalJSON ord1 raw = s1.UnmarshalJSON ord1 raw ∧
    ((∀ x ∈ entriesOf (jsonUnmarshalMap stringElem raw none).1,
        ∀ y ∈ entriesOf (jsonUnmarshalMap stringElem raw none).1, ∀ k,
        hexDecodeString x.1 = .ok k → hexDecodeString y.1 = .ok k → x = y) →
      ∀ k, ((s2.UnmarshalJSON ord2 raw).2.Get k).1 = ((s1.UnmarshalJSON ord1 raw).2.Get k).1) := by
  cases h1 : jsonUnmarshalMap stringElem raw none with
  | mk val err1 =>
  cases err1 with
  | some e1 => simp [SimpleMap.UnmarshalJSON, h1] at h
  | none =>
    cases h2 : SimpleMap.decodeLoop val (ord1.visit (entriesOf val)) GoMap.empty with
    | mk m1 err2 =>
    cases err2 with
    | some e2 => simp [SimpleMap.UnmarshalJSON, h1, h2] at h
    | none =>
      have hu1 : ∀ sm : SimpleMap, sm.UnmarshalJSON ord1 raw
          = ((jsonUnmarshalMap bytesElem raw (some m1)).2,
              ⟨(jsonUnmarshalMap bytesElem raw (some m1)).1⟩) := by
        intro sm
        simp [SimpleMap.UnmarshalJSON, h1, h2]
      have hall := decodeLoop_entry_ok val _ _ m1 h2
      have hnone2 : (SimpleMap.decodeLoop val (ord2.visit (entriesOf val)) GoMap.empty).2
          = none :=
        decodeLoop_none_of_all val _ _
          (fun x hx => hall x ((ord1.perm _).symm.subset ((ord2.perm _).subset hx)))
      cases h3 : SimpleMap.decodeLoop val (ord2.visit (entriesOf val)) GoMap.empty with
      | mk m2 err3 =>
      rw [h3] at hnone2
      simp only at hnone2
      subst hnone2
      have hu2 : s2.UnmarshalJSON ord2 raw
          = ((jsonUnmarshalMap bytesElem raw (some m2)).2,
              ⟨(jsonUnmarshalMap bytesElem raw (some m2)).1⟩) := by
        simp [SimpleMap.UnmarshalJSON, h1, h3]
      rw [hu1 s1] at h
      simp only at h
      have herr : (jsonUnmarshalMap bytesElem raw (some m2)).2 = none := by
        rw [← h]
        rcases raw with _ | (members | _ | _)
        · rfl
        · simp only [jsonUnmarshalMap, Option.getD_some]
          exact storeMembers_error_indep bytesElem members m2 m1 none
        · rfl
        · rfl
      refine ⟨by rw [hu2]; exact herr, by rw [hu1 s1, hu1 s2], fun hinj k => ?_⟩
      rw [hu1 s1, hu2]
      have hlk : ∀ k, lookupEntry k m2.entries = lookupEntry k m1.entries :=
        decodeLoop_lookup_det val _ _ m2 m1
          ((ord2.perm _).trans (ord1.perm _).symm)
          (fun x hx => (ord2.perm _).subset hx) h3 h2 hinj
      have hidx : index (jsonUnmarshalMap bytesElem raw (some m2)).1 k
          = index (jsonUnmarshalMap bytesElem raw (some m1)).1 k := by
        rcases raw with _ | (members | _ | _)
        · exact hlk k
        · simp only [jsonUnmarshalMap, Option.getD_some, index, entriesOf]
          exact storeMembers_lookup_congr bytesElem members m2 m1 none none hlk k
        · rfl
        · exact hlk k
      simp only [SimpleMap.Get, hidx]
      cases index (jsonUnmarshalMap bytesElem raw (some m1)).1 k <;> rfl

/-- Witness of C13 as amended: the object with the single member "01": "abcd"
decoded into the store {0x07 -> 0x08} and into a fresh store, in two orders. -/
theorem C13_decode_replaces_witness :
    (NewSimpleMap.UnmarshalJSON .reversed (objectText [("01", "abcd")])).1 = none ∧
    NewSimpleMap.UnmarshalJSON .listed (objectText [("01", "abcd")])
      = (⟨some (.ofList [([7], [8])])⟩ : SimpleMap).UnmarshalJSON .listed
          (objectText [("01", "abcd")]) ∧
    ((NewSimpleMap.UnmarshalJSON .reversed (objectText [("01", "abcd")])).2.Get [7]).1
      = (((⟨some (.ofList [([7], [8])])⟩ : SimpleMap).UnmarshalJSON .listed
          (objectText [("01", "abcd")])).2.Get [7]).1 :=
  ⟨(C13_decode_replaces .listed .reversed ⟨some (.ofList [([7], [8])])⟩ NewSimpleMap
      (objectText [("01", "abcd")]) (by decide)).1,
   (C13_decode_replaces .listed .reversed ⟨some (.ofList [([7], [8])])⟩ NewSimpleMap
      (objectText [("01", "abcd")]) (by decide)).2.1,
   (C13_decode_replaces .listed .reversed ⟨some (.ofList [([7], [8])])⟩ NewSimpleMap
      (objectText [("01", "abcd")]) (by decide)).2.2 (by
        have hval : entriesOf (jsonUnmarshalMap stringElem (objectText [("01", "abcd")]) none).1
            = [(ascii "01", ascii "abcd")] := by decide
        rw [hval]
        intro x hx y hy k _ _
        rw [List.mem_singleton] at hx hy
        rw [hx, hy]) [7]⟩

/-- C13 as stated fails: the object with the members "aa": "" and "AA": "0000",
whose key strings both decode to 0xAA, is decoded with success into the store
{0x07 -> 0x08} and into a fresh store; the decode loop of the first call visits
"AA" first, that of the second call visits "aa" first (Go leaves the order of a
`range` over a map open), and the two stores end with different values for 0xAA. -/
theorem C13_counterexample :
    ((⟨some (.ofList [([7], [8])])⟩ : SimpleMap).UnmarshalJSON .listed
        (objectText [("aa", ""), ("AA", "0000")])).1 = none ∧
    (NewSimpleMap.UnmarshalJSON .reversed (objectText [("aa", ""), ("AA", "0000")])).1 = none ∧
    (((⟨some (.ofList [([7], [8])])⟩ : SimpleMap).UnmarshalJSON .listed
        (objectText [("aa", ""), ("AA", "0000")])).2.Get [0xAA]).1 = ([], none) ∧
    ((NewSimpleMap.UnmarshalJSON .reversed
        (objectText [("aa", ""), ("AA", "0000")])).2.Get [0xAA]).1 = ([0x00, 0x00], none) := by
  decide

end Smt
